import Mathlib

/-!
Verification of the rpipe chunked-stream transfer tool (rpipe.py).

Byte strings are modelled as `List Nat` (character codes).  The MD5 digest
algorithm is external to the program logic: it is modelled as an arbitrary
function `H : List Nat → List Nat` from a byte stream to its hex-digest
token, constrained only by `HexLike` (a digest is a nonempty token with no
whitespace characters, which is true of every MD5 hex digest).  Equal byte
streams therefore get equal digests, which is the only property of MD5 the
program relies on for its round-trip behaviour.

The rclone object store client is modelled as an association list from
object names to object contents; `rclone md5sum --include=rp-*` is the
filtered digest map of that list, `rclone lsf` is its name list, and
`rclone cat` of a missing object yields an empty stream (the source ignores
the subprocess exit status).  The par2 erasure-coding engine is modelled by
a success predicate `par2ok` and a repaired-content function `repaired`.

Python `while` loops are written as fuel-indexed structural recursions; the
fuel passed by the wrappers is always sufficient (proved in the lemmas), so
the out-of-fuel branches are unreachable.
-/

namespace RPipe

/-! ### Character-level helpers: Python str.split, line iteration, comparison -/

/-- Whitespace characters recognised by Python str.split(). -/
def isSpace (c : Nat) : Bool :=
  c = 32 || c = 9 || c = 10 || c = 13 || c = 11 || c = 12

/-- Accumulating worker for `pySplit`. -/
def pySplitAux : List Nat → List Nat → List (List Nat)
  | cur, [] => if cur.isEmpty then [] else [cur]
  | cur, c :: rest =>
    if isSpace c then
      if cur.isEmpty then pySplitAux [] rest else cur :: pySplitAux [] rest
    else pySplitAux (cur ++ [c]) rest

/-- Python str.split() with no arguments: split on runs of whitespace,
never producing empty tokens. -/
def pySplit (l : List Nat) : List (List Nat) := pySplitAux [] l

/-- Accumulating worker for `pyLines`. -/
def pyLinesAux : List Nat → List Nat → List (List Nat)
  | cur, [] => if cur.isEmpty then [] else [cur]
  | cur, c :: rest =>
    if c = 10 then cur :: pyLinesAux [] rest else pyLinesAux (cur ++ [c]) rest

/-- Iterating a text buffer line by line, as Python file iteration does
(the trailing newline kept by Python on each line is dropped here, since
every consumer immediately str.split()s the line, which discards it). -/
def pyLines (buf : List Nat) : List (List Nat) := pyLinesAux [] buf

/-- Accumulating worker for `pySplitChar`. -/
def splitByteAux (sep : Nat) : List Nat → List Nat → List (List Nat)
  | cur, [] => [cur]
  | cur, c :: rest =>
    if c = sep then cur :: splitByteAux sep [] rest
    else splitByteAux sep (cur ++ [c]) rest

/-- Python str.split(sep) with an explicit one-character separator
(empty parts are kept, as Python does). -/
def pySplitChar (sep : Nat) (l : List Nat) : List (List Nat) := splitByteAux sep [] l

/-- Python string less-than: lexicographic comparison by character code. -/
def pyStrLt : List Nat → List Nat → Bool
  | _, [] => false
  | [], _ :: _ => true
  | a :: as, b :: bs => if a < b then true else if b < a then false else pyStrLt as bs

/-- The non-strict order induced by Python string comparison, used to model
Python sorted(). -/
def pyLe (a b : List Nat) : Prop := pyStrLt b a = false

instance : DecidableRel pyLe := fun a b =>
  inferInstanceAs (Decidable (pyStrLt b a = false))

/-! ### Python dict, modelled as an association list with overwriting insert -/

instance {ε α : Type} [DecidableEq ε] [DecidableEq α] : DecidableEq (Except ε α) := fun a b =>
  match a, b with
  | .error x, .error y =>
    if h : x = y then isTrue (by rw [h]) else isFalse fun hc => h (Except.error.inj hc)
  | .ok x, .ok y =>
    if h : x = y then isTrue (by rw [h]) else isFalse fun hc => h (Except.ok.inj hc)
  | .error _, .ok _ => isFalse fun hc => Except.noConfusion hc
  | .ok _, .error _ => isFalse fun hc => Except.noConfusion hc

/-- Python dict lookup d[k] returning none on a missing key. -/
def dictGet {α : Type} : List (List Nat × α) → List Nat → Option α
  | [], _ => none
  | (k', v) :: r, k => if k' = k then some v else dictGet r k

/-- Python dict assignment d[k] = v. -/
def dictSet {α : Type} (md : List (List Nat × α)) (k : List Nat) (v : α) :
    List (List Nat × α) :=
  if (md.map Prod.fst).contains k then
    md.map fun p => if p.1 = k then (k, v) else p
  else md ++ [(k, v)]

/-- Python dict key list. -/
def dictKeys {α : Type} (md : List (List Nat × α)) : List (List Nat) :=
  md.map Prod.fst

/-! ### Name constants -/

/-- The chunk file name prefix "rp-". -/
def rpPre : List Nat := [114, 112, 45]

/-- The reserved ledger key "TOTAL". -/
def TOTAL : List Nat := [84, 79, 84, 65, 76]

/-- The manifest object name "rpipe.md5". -/
def md5Name : List Nat := [114, 112, 105, 112, 101, 46, 109, 100, 53]

/-! ### Chunk naming: mkname (rpipe.py lines 101-115)

The source loop writes base-26 digits into a pre-filled array of 'a'
characters from position width-1 downwards, dividing n by 26 each step,
and raises when the position counter underflows.  The recursion on n is
written with a fuel counter (n+1 steps always suffice since n strictly
decreases). -/

/-- The while loop of mkname: s is the character array, p the write
position, n the remaining value. -/
def mknameLoop : Nat → List Nat → Int → Nat → Except String (List Nat)
  | 0, _, _, _ => .error "fuel"
  | fuel + 1, s, p, n =>
    if n = 0 then .ok s
    else if p < 0 then .error "n too large for width!"
    else mknameLoop fuel (s.set p.toNat (97 + n % 26)) (p - 1) (n / 26)

/-- Converts n into a fixed-width base-26 [a-z] name, prefixed by pre. -/
def mkname (n : Nat) (width : Nat := 6) (pre : List Nat := []) :
    Except String (List Nat) :=
  (mknameLoop (n + 1) (List.replicate width 97) ((width : Int) - 1) n).map
    fun s => pre ++ s

/-- Most-significant-first fixed-width base-26 digit list of n. -/
def natDigits : Nat → Nat → List Nat
  | 0, _ => []
  | w + 1, n => natDigits w (n / 26) ++ [n % 26]

/-- The character string mkname produces for index n at width w
(meaningful when n is representable in width w). -/
def cidName (w n : Nat) : List Nat := (natDigits w n).map fun d => 97 + d

/-- The chunk file basename for chunk index n: "rp-" followed by the
default-width name. -/
def rpName (n : Nat) : List Nat := rpPre ++ cidName 6 n

/-! ### Chunker: readin (rpipe.py lines 118-135)

readin reads up to tot bytes from stdin into a chunk file in blk-size
blocks, feeding every block to the chunk digest and the whole-stream
digest; it returns the number of bytes read.  Here stdin is a byte list
and the result is the pair (bytes written to the chunk file, remaining
stdin); the byte count of the source is the length of the first
component, and the digests are fed exactly those bytes. -/

/-- The while loop of readin. -/
def readinLoop (blk : Nat) : Nat → Nat → List Nat → List Nat × List Nat
  | 0, _, stdin => ([], stdin)
  | fuel + 1, tot, stdin =>
    if tot = 0 then ([], stdin)
    else
      let d := stdin.take (min blk tot)
      if d.length = 0 then ([], stdin)
      else
        let r := readinLoop blk fuel (tot - d.length) (stdin.drop d.length)
        (d ++ r.1, r.2)

/-- readin: read up to tot bytes from stdin in blk-size blocks. -/
def readin (blk tot : Nat) (stdin : List Nat) : List Nat × List Nat :=
  readinLoop blk (tot + 1) tot stdin

/-! ### The partition of the input into chunks (specification helper) -/

/-- Fuel-indexed worker for chunkSplit. -/
def chunkSplitAux (C : Nat) : Nat → List Nat → List (List Nat)
  | 0, _ => []
  | fuel + 1, s =>
    if s.isEmpty then [] else s.take C :: chunkSplitAux C fuel (s.drop C)

/-- The partition of a byte list into C-sized chunks (last one possibly
short); the list of chunk contents the send path seals. -/
def chunkSplit (C : Nat) (s : List Nat) : List (List Nat) :=
  chunkSplitAux C s.length s

/-! ### Streaming a remote object: cat (rpipe.py lines 147-168) used by replay -/

/-- The block-read loop of replay over a streamed remote object: read
blk-size blocks until an empty read, concatenating what was read (the
bytes written to stdout and fed to both digests). -/
def catLoop (blk : Nat) : Nat → List Nat → List Nat
  | 0, _ => []
  | fuel + 1, s =>
    let buf := s.take blk
    if buf.length = 0 then [] else buf ++ catLoop blk fuel (s.drop blk)

/-- Reading a whole remote object stream in blk-size blocks. -/
def catRead (blk : Nat) (s : List Nat) : List Nat := catLoop blk (s.length + 1) s

/-! ### The transfer session configuration (rpipe.py argparse options) -/

/-- The CLI options that the send/verify/replay paths consult. -/
structure Args where
  chunksize : Nat
  blocksize : Nat
  jobs : Nat
  nocheck : Bool
  parchive : Bool
  repair : Bool
deriving DecidableEq

/-- A digest function is hex-like when every digest it produces is a
nonempty token containing no whitespace; true of MD5 hexdigest output
(32 characters from 0-9a-f). -/
def HexLike (H : List Nat → List Nat) : Prop :=
  ∀ s, H s ≠ [] ∧ ∀ c ∈ H s, isSpace c = false

/-- The parity artifact name for a chunk identifier: "par-" ++ cid ++ ".par2". -/
def parNameOf (cid : List Nat) : List Nat :=
  [112, 97, 114, 45] ++ cid ++ [46, 112, 97, 114, 50]

/-! ### Upload window bookkeeping: complete (rpipe.py lines 171-176)

Scratch-directory state is tracked as the list of chunk indices whose
local files currently exist (live) and the list of indices with an
outstanding upload subprocess (inflight).  complete blocks on the m-th
upload if one is outstanding and then deletes the local file. -/

/-- complete: wait for the m-th chunk upload if it is still in flight,
then unlink its local chunk file. -/
def complete (live inflight : List Nat) (m : Nat) : List Nat × List Nat :=
  if inflight.contains m then (live.erase m, inflight.erase m) else (live, inflight)

/-! ### The send loop: deposit (rpipe.py lines 268-343) -/

/-- The state accumulated by the send loop: sealed chunks (basename,
content), remote uploads so far, bytes fed to the whole-stream digest,
number of chunk files created (len(flist)), window bookkeeping, and the
scratch-directory trace (one snapshot of the live chunk-file index list
after every create/delete event). -/
structure DepLoopOut where
  acc : List (List Nat × List Nat)
  rem : List (List Nat × List Nat)
  tot : List Nat
  flen : Nat
  live : List Nat
  inflight : List Nat
  trace : List (List Nat)
deriving DecidableEq

/-- The while b > 0 loop of deposit.  Each iteration names chunk n,
creates its local file, reads up to chunksize bytes, completes the
upload n - jobs positions back once the window is full, and either
seals/uploads the chunk (optionally preceded by its parity artifact)
or unlinks the empty trailing file and stops. -/
def depositLoop (parData : Nat → List Nat) (args : Args) :
    Nat → List Nat → Nat → List Nat → List (List Nat × List Nat) →
    List (List Nat × List Nat) → List Nat → List Nat → List (List Nat) →
    Except String DepLoopOut
  | 0, _, _, _, _, _, _, _, _ => .error "fuel"
  | fuel + 1, stdin, n, tot, acc, rem, live, inflight, trace =>
    match mkname n with
    | .error e => .error e
    | .ok cid =>
      let fname := rpPre ++ cid
      let live1 := live ++ [n]
      let trace1 := trace ++ [live1]
      let rd := readin args.blocksize args.chunksize stdin
      let tot1 := tot ++ rd.1
      let st2 := if args.jobs ≤ n then complete live1 inflight (n - args.jobs)
                 else (live1, inflight)
      let trace2 := trace1 ++ [st2.1]
      if rd.1.length ≠ 0 then
        let rem1 := if args.parchive then rem ++ [(parNameOf cid, parData n)] else rem
        let rem2 := rem1 ++ [(fname, rd.1)]
        let inflight1 := st2.2 ++ [n]
        let st3 := if n = 0 then complete st2.1 inflight1 0 else (st2.1, inflight1)
        let trace3 := trace2 ++ [st3.1]
        depositLoop parData args fuel rd.2 (n + 1) tot1 (acc ++ [(fname, rd.1)])
          rem2 st3.1 st3.2 trace3
      else
        let live3 := st2.1.erase n
        .ok ⟨acc, rem, tot1, n + 1, live3, st2.2, trace2 ++ [live3]⟩

/-- The drain loop after input exhaustion: for x in range(len(flist)),
complete each chunk, deleting any remaining local files. -/
def drainList : List Nat → List Nat → List Nat → List (List Nat) →
    List Nat × List Nat × List (List Nat)
  | [], live, inflight, trace => (live, inflight, trace)
  | x :: r, live, inflight, trace =>
    let p := complete live inflight x
    drainList r p.1 p.2 (trace ++ [p.1])

/-- One line of the manifest: "digest" ++ two spaces ++ "name" ++ newline,
as written by print("{}  {}".format(...), file=md). -/
def manifestLine (dg nm : List Nat) : List Nat := dg ++ [32, 32] ++ nm ++ [10]

/-- The result of a completed send: the sealed chunks, the manifest
buffer, the remote object map, the whole-stream digest preimage, and
the scratch trace. -/
structure DepOut where
  chunks : List (List Nat × List Nat)
  manifestBuf : List Nat
  remote : List (List Nat × List Nat)
  tot : List Nat
  trace : List (List Nat)
deriving DecidableEq

/-- deposit without its optional final verification: run the send loop,
drain the upload window, build and upload the manifest. -/
def depositCore (H : List Nat → List Nat) (parData : Nat → List Nat)
    (args : Args) (stdin : List Nat) : Except String DepOut :=
  match depositLoop parData args (stdin.length + 1) stdin 0 [] [] [] [] [] [] with
  | .error e => .error e
  | .ok o =>
    let dr := drainList (List.range o.flen) o.live o.inflight o.trace
    let lines := (o.acc.map fun p => manifestLine (H p.2) p.1) ++
      [manifestLine (H o.tot) TOTAL]
    let buf := lines.flatten
    .ok ⟨o.acc, buf, o.rem ++ [(md5Name, buf)], o.tot, dr.2.2⟩

/-- The (name, content) pairs the send loop seals for a chunk-content
list, starting at chunk index i. -/
def nameChunks : Nat → List (List Nat) → List (List Nat × List Nat)
  | _, [] => []
  | i, c :: cs => (rpName i, c) :: nameChunks (i + 1) cs

/-- The remote objects the send loop uploads for a chunk-content list
starting at index i: an optional parity artifact before each chunk. -/
def uploadsOf (parchive : Bool) (parData : Nat → List Nat) :
    Nat → List (List Nat) → List (List Nat × List Nat)
  | _, [] => []
  | i, c :: cs =>
    (if parchive then [(parNameOf (cidName 6 i), parData i)] else []) ++
      [(rpName i, c)] ++ uploadsOf parchive parData (i + 1) cs

/-- The list of k chunk basenames starting at index i. -/
def rpNames (i : Nat) : Nat → List (List Nat)
  | 0 => []
  | k + 1 => rpName i :: rpNames (i + 1) k

/-- The canonical live chunk-file index list of the scratch directory at
the start of send-loop iteration n with window width W: the indices from
max 1 (n - W) up to n - 1 (chunk 0 is completed within iteration 0, and
each later chunk is deleted W iterations after its own). -/
def liveL (W n : Nat) : List Nat :=
  List.range' (max 1 (n - W)) (n - max 1 (n - W))

/-! ### Integrity verifier and repair coordinator: check_pipe
(rpipe.py lines 183-265)

All four raise sites in check_pipe raise ChecksumError; the error
constructors below name the four conditions by their specification
taxonomy names (MissingChunk for line 223, NoParityAvailable for line
264, RepairAvailableButNotRequested for line 261, RepairFailed for line
253).  IndexErr models the IndexError Python would raise at
d[1].split('-')[1] if a ledger name present in the inventory had no dash;
this is not a ChecksumError and is proved unreachable. -/

inductive CheckErr where
  | MissingChunk
  | NoParityAvailable
  | RepairAvailableButNotRequested
  | RepairFailed
  | IndexErr
deriving DecidableEq

/-- The external collaborators of the verifier: the repair request flag
and the par2 engine (its success signal and the content it writes into
the repaired local chunk file). -/
structure Env where
  repair : Bool
  par2ok : List Nat → Bool
  repaired : List Nat → List Nat

/-- The remote object map together with the repair scratch files
currently present in the local scratch directory. -/
structure CheckState where
  remote : List (List Nat × List Nat)
  scratch : List (List Nat)
deriving DecidableEq

/-- chunk_id = d[1].split('-')[1]. -/
def chunkIdOf (nm : List Nat) : Option (List Nat) := (pySplitChar 45 nm).get? 1

/-- The par2 side file "{}.1" left next to the repaired chunk. -/
def sideName (nm : List Nat) : List Nat := nm ++ [46, 49]

/-- Processing of one ledger line by check_pipe: skip short lines and the
TOTAL entry; require presence in the remote inventory; on a digest
mismatch look for a parity artifact and repair if requested, re-uploading
the repaired chunk under its original name on engine success (the raise
on engine failure skips the scratch unlinks). -/
def checkStep (env : Env) (rs : List (List Nat × List Nat)) (st : CheckState)
    (l : List Nat) : Except (CheckErr × CheckState) CheckState :=
  let d := pySplit l
  if d.length < 2 then .ok st
  else
    let d0 := d.getD 0 []
    let d1 := d.getD 1 []
    if d1 = TOTAL then .ok st
    else
      match dictGet rs d1 with
      | none => .error (.MissingChunk, st)
      | some rsum =>
        if rsum ≠ d0 then
          let files := st.remote.map Prod.fst
          match chunkIdOf d1 with
          | none => .error (.IndexErr, st)
          | some cid =>
            if files.contains (parNameOf cid) then
              if env.repair then
                let scratch1 := st.scratch ++ [parNameOf cid, d1, sideName d1]
                if env.par2ok d1 then
                  let remote1 := dictSet st.remote d1 (env.repaired d1)
                  let scratch2 := ((scratch1.erase (parNameOf cid)).erase d1).erase (sideName d1)
                  .ok ⟨remote1, scratch2⟩
                else .error (.RepairFailed, ⟨st.remote, scratch1⟩)
              else .error (.RepairAvailableButNotRequested, st)
            else .error (.NoParityAvailable, st)
        else .ok st

/-- The once-per-row loop of check_pipe over the ledger lines. -/
def checkLoop (env : Env) (rs : List (List Nat × List Nat)) :
    CheckState → List (List Nat) → Except (CheckErr × CheckState) CheckState
  | st, [] => .ok st
  | st, l :: ls =>
    match checkStep env rs st l with
    | .error e => .error e
    | .ok st1 => checkLoop env rs st1 ls

/-- The remote checksum inventory: rclone md5sum --include=rp-* over the
remote, i.e. the store-reported digest of every object whose name starts
with "rp-". -/
def remoteSums (H : List Nat → List Nat) (remote : List (List Nat × List Nat)) :
    List (List Nat × List Nat) :=
  (remote.filter fun p => rpPre.isPrefixOf p.1).map fun p => (p.1, H p.2)

/-- check_pipe: fetch the inventory and the ledger and cross-check them,
returning the ledger buffer (and the possibly-repaired remote with the
final scratch contents) on success. -/
def check_pipe (H : List Nat → List Nat) (env : Env)
    (remote : List (List Nat × List Nat)) :
    Except (CheckErr × CheckState) (List Nat × CheckState) :=
  let rs := remoteSums H remote
  let buf := (dictGet remote md5Name).getD []
  match checkLoop env rs ⟨remote, []⟩ (pyLines buf) with
  | .error e => .error e
  | .ok st => .ok (buf, st)

/-- deposit: the full send path, including the final checksum check when
nocheck is not set. -/
def deposit (H : List Nat → List Nat) (parData : Nat → List Nat)
    (par2ok : List Nat → Bool) (repaired : List Nat → List Nat)
    (args : Args) (stdin : List Nat) : Except (CheckErr × CheckState) DepOut :=
  match depositCore H parData args stdin with
  | .error _ => .error (.IndexErr, ⟨[], []⟩)
  | .ok st =>
    if args.nocheck then .ok st
    else
      match check_pipe H ⟨args.repair, par2ok, repaired⟩ st.remote with
      | .error e => .error e
      | .ok _ => .ok st

/-! ### Replay engine (rpipe.py lines 346-393) -/

/-- The outcome of a replay run: aborted by the initial integrity check,
crashed while building the name-to-digest mapping (IndexError on a
one-token line), emitted all output but crashed looking up md TOTAL
(KeyError), or completed with the emitted bytes, the per-chunk mismatch
warning count, and the whole-stream mismatch warning flag. -/
inductive ReplayResult where
  | checkFailed (e : CheckErr)
  | parseIndexError
  | totalKeyError (out : List Nat) (warns : Nat)
  | done (out : List Nat) (warns : Nat) (totalWarn : Bool)
deriving DecidableEq

/-- The mapping-building loop of replay: md[d[1]] = d[0] for every line
with at least one token; a one-token line raises IndexError at d[1]. -/
def replayBuildMd : List (List Nat × List Nat) → List (List Nat) →
    Except String (List (List Nat × List Nat))
  | md, [] => .ok md
  | md, l :: ls =>
    let d := pySplit l
    if d.length = 0 then replayBuildMd md ls
    else if d.length < 2 then .error "IndexError"
    else replayBuildMd (dictSet md (d.getD 1 []) (d.getD 0 [])) ls

/-- The chunk emission loop of replay: iterate the sorted manifest keys,
skip TOTAL, stream each chunk from the remote to stdout while feeding
both digests, and count (non-fatally) the per-chunk digest mismatches. -/
def replayEmit (H : List Nat → List Nat) (remote : List (List Nat × List Nat))
    (blk : Nat) (md : List (List Nat × List Nat)) :
    List (List Nat) → List Nat × Nat
  | [] => ([], 0)
  | f :: fs =>
    if f = TOTAL then replayEmit H remote blk md fs
    else
      let content := (dictGet remote f).getD []
      let out := catRead blk content
      let r := replayEmit H remote blk md fs
      (out ++ r.1, (if H out ≠ (dictGet md f).getD [] then 1 else 0) + r.2)

/-- The tail of replay once the name-to-digest mapping has been built:
emit all chunks in sorted-name order, then compare the accumulated
whole-stream digest with md[TOTAL] (a KeyError when TOTAL is absent). -/
def replayFromMd (H : List Nat → List Nat) (remote : List (List Nat × List Nat))
    (blk : Nat) (md : List (List Nat × List Nat)) : ReplayResult :=
  let er := replayEmit H remote blk md (List.insertionSort pyLe (dictKeys md))
  match dictGet md TOTAL with
  | none => .totalKeyError er.1 er.2
  | some t => .done er.1 er.2 (decide (H er.1 ≠ t))

/-- replay: optionally verify first (obtaining the ledger buffer from the
verifier), otherwise fetch the ledger without verification; then build
the mapping and emit. -/
def replay (H : List Nat → List Nat) (par2ok : List Nat → Bool)
    (repaired : List Nat → List Nat) (args : Args)
    (remote : List (List Nat × List Nat)) : ReplayResult :=
  let checked : Except (CheckErr × CheckState) (List Nat × CheckState) :=
    if args.nocheck then .ok ((dictGet remote md5Name).getD [], ⟨remote, []⟩)
    else check_pipe H ⟨args.repair, par2ok, repaired⟩ remote
  match checked with
  | .error e => .checkFailed e.1
  | .ok (buf, st) =>
    match replayBuildMd [] (pyLines buf) with
    | .error _ => .parseIndexError
    | .ok md => replayFromMd H st.remote args.blocksize md

/-! ### Process exit status for a verify-only invocation
(rpipe.py lines 396-418)

A ChecksumError is caught and sets ret = 1; any other exception
propagates into the finally block, whose exit(ret) raises SystemExit(0)
and therefore terminates the process with status 0. -/

/-- The exit status of rpipe.py --verify. -/
def mainVerify (H : List Nat → List Nat) (env : Env)
    (remote : List (List Nat × List Nat)) : Nat :=
  match check_pipe H env remote with
  | .ok _ => 0
  | .error (e, _) => if e = .IndexErr then 0 else 1

/-! ### Theorems -/

/-! ### Basic order lemmas for Python string comparison -/

theorem pyStrLt_irrefl (a : List Nat) : pyStrLt a a = false := by
  induction a with
  | nil => rfl
  | cons c r ih => simp [pyStrLt, ih]

theorem pyStrLt_eq_of_not_lt :
    ∀ a b : List Nat, pyStrLt a b = false → pyStrLt b a = false → a = b := by
  intro a
  induction a with
  | nil =>
    intro b hab _
    cases b with
    | nil => rfl
    | cons c r => simp [pyStrLt] at hab
  | cons c r ih =>
    intro b hab hba
    cases b with
    | nil => simp [pyStrLt] at hba
    | cons d s =>
      simp only [pyStrLt] at hab hba
      by_cases hcd : c < d
      · simp [hcd] at hab
      · by_cases hdc : d < c
        · simp [hdc, Nat.lt_asymm hdc] at hba
        · have hce : c = d := Nat.le_antisymm (Nat.le_of_not_lt hdc) (Nat.le_of_not_lt hcd)
          subst hce
          simp only [hcd, if_neg, Nat.lt_irrefl, if_false] at hab hba
          rw [ih s hab hba]

theorem pyStrLt_trans :
    ∀ a b c : List Nat, pyStrLt a b = true → pyStrLt b c = true → pyStrLt a c = true := by
  intro a
  induction a with
  | nil =>
    intro b c hab hbc
    cases c with
    | nil =>
      cases b with
      | nil => exact hab
      | cons d s => simp [pyStrLt] at hbc
    | cons e t => simp [pyStrLt]
  | cons x r ih =>
    intro b c hab hbc
    cases b with
    | nil => simp [pyStrLt] at hab
    | cons y s =>
      cases c with
      | nil => simp [pyStrLt] at hbc
      | cons z t =>
        simp only [pyStrLt] at hab hbc ⊢
        by_cases hxy : x < y
        · by_cases hyz : y < z
          · simp [Nat.lt_trans hxy hyz]
          · by_cases hzy : z < y
            · simp [hyz, hzy] at hbc
            · have : y = z := Nat.le_antisymm (Nat.le_of_not_lt hzy) (Nat.le_of_not_lt hyz)
              subst this
              simp [hxy]
        · by_cases hyx : y < x
          · simp [hxy, hyx] at hab
          · have : x = y := Nat.le_antisymm (Nat.le_of_not_lt hyx) (Nat.le_of_not_lt hxy)
            subst this
            simp only [Nat.lt_irrefl, if_false, if_neg] at hab
            by_cases hyz : x < z
            · simp [hyz]
            · by_cases hzy : z < x
              · simp [hyz, hzy] at hbc
              · have : x = z := Nat.le_antisymm (Nat.le_of_not_lt hzy) (Nat.le_of_not_lt hyz)
                subst this
                simp only [Nat.lt_irrefl, if_false, if_neg] at hbc ⊢
                exact ih s t (by simpa using hab) (by simpa using hbc)

theorem pyStrLt_asymm {a b : List Nat} (h : pyStrLt a b = true) : pyStrLt b a = false := by
  by_contra hba
  have hba' : pyStrLt b a = true := by
    cases hc : pyStrLt b a with
    | false => exact absurd hc hba
    | true => rfl
  have := pyStrLt_trans a b a h hba'
  rw [pyStrLt_irrefl] at this
  exact Bool.false_ne_true this

instance : IsTrans (List Nat) pyLe where
  trans := by
    intro a b c hab hbc
    unfold pyLe at *
    by_contra hca
    have hca' : pyStrLt c a = true := by
      cases hc : pyStrLt c a with
      | false => exact absurd hc hca
      | true => rfl
    rcases Decidable.em (pyStrLt b c = true) with hbct | hbcf
    · have := pyStrLt_trans b c a hbct hca'
      rw [hab] at this
      simp at this
    · have hbc0 : pyStrLt b c = false := by
        cases hc : pyStrLt b c with
        | false => rfl
        | true => exact absurd hc hbcf
      have : b = c := pyStrLt_eq_of_not_lt b c hbc0 hbc
      subst this
      rw [hab] at hca'
      simp at hca'

instance : IsAntisymm (List Nat) pyLe where
  antisymm := by
    intro a b hab hba
    exact pyStrLt_eq_of_not_lt a b hba hab

instance : IsTotal (List Nat) pyLe where
  total := by
    intro a b
    unfold pyLe
    by_cases hba : pyStrLt b a = true
    · right
      exact pyStrLt_asymm hba
    · left
      cases hc : pyStrLt b a with
      | false => rfl
      | true => exact absurd hc hba

theorem natDigits_length (w n : Nat) : (natDigits w n).length = w := by
  induction w generalizing n with
  | zero => rfl
  | succ w ih => simp [natDigits, ih]

theorem natDigits_zero (w : Nat) : natDigits w 0 = List.replicate w 0 := by
  induction w with
  | zero => rfl
  | succ w ih =>
    show natDigits w (0 / 26) ++ [0 % 26] = _
    rw [Nat.zero_div, ih, ← List.replicate_succ' (n := w)]

theorem natDigits_lt_26 (w n : Nat) : ∀ d ∈ natDigits w n, d < 26 := by
  induction w generalizing n with
  | zero => intro d hd; simp [natDigits] at hd
  | succ w ih =>
    intro d hd
    simp only [natDigits, List.mem_append, List.mem_singleton] at hd
    rcases hd with h | h
    · exact ih (n / 26) d h
    · subst h; exact Nat.mod_lt _ (by omega)

theorem set_replicate_last (w : Nat) (a b : Nat) :
    (List.replicate (w + 1) a).set w b = List.replicate w a ++ [b] := by
  induction w with
  | zero => rfl
  | succ w ih =>
    rw [List.replicate_succ (n := w + 1)]
    show a :: (List.replicate (w + 1) a).set w b = _
    rw [ih, List.replicate_succ]
    rfl

theorem set_append_left {α : Type} (l r : List α) (i : Nat) (a : α) (h : i < l.length) :
    (l ++ r).set i a = l.set i a ++ r := by
  induction l generalizing i with
  | nil => simp at h
  | cons x xs ih =>
    cases i with
    | zero => rfl
    | succ i =>
      show x :: (xs ++ r).set i a = x :: xs.set i a ++ r
      rw [ih i (by simpa using h)]
      rfl

theorem mknameLoop_ok (w : Nat) :
    ∀ n rest fuel, n < 26 ^ w → n + 1 ≤ fuel →
      mknameLoop fuel (List.replicate w 97 ++ rest) ((w : Int) - 1) n =
        .ok (cidName w n ++ rest) := by
  induction w with
  | zero =>
    intro n rest fuel hn hfuel
    have hn0 : n = 0 := by simpa using hn
    subst hn0
    cases fuel with
    | zero => omega
    | succ fuel => simp [mknameLoop, cidName, natDigits]
  | succ w ih =>
    intro n rest fuel hn hfuel
    cases fuel with
    | zero => omega
    | succ fuel =>
      by_cases hn0 : n = 0
      · subst hn0
        simp only [mknameLoop, if_pos rfl]
        rw [cidName, natDigits_zero, List.map_replicate]
        norm_num
      · simp only [mknameLoop, if_neg hn0,
          if_neg (by push_cast; omega : ¬ (((w + 1 : Nat) : Int) - 1 < 0))]
        rw [show (((w + 1 : Nat) : Int) - 1).toNat = w by push_cast; omega]
        rw [set_append_left _ _ _ _ (by simp), set_replicate_last]
        rw [List.append_assoc]
        have harith : ((w + 1 : Nat) : Int) - 1 - 1 = (w : Int) - 1 := by push_cast; omega
        rw [harith]
        have hdiv : n / 26 < 26 ^ w := by
          rw [Nat.div_lt_iff_lt_mul (by omega)]
          calc n < 26 ^ (w + 1) := hn
            _ = 26 ^ w * 26 := by ring
        have hfuel' : n / 26 + 1 ≤ fuel := by
          have : n / 26 < n := Nat.div_lt_self (by omega) (by omega)
          omega
        rw [ih (n / 26) ([97 + n % 26] ++ rest) fuel hdiv hfuel']
        rw [cidName, cidName, natDigits]
        simp [List.map_append]

theorem mknameLoop_err (w : Nat) :
    ∀ n s fuel, 26 ^ w ≤ n → n + 1 ≤ fuel →
      mknameLoop fuel s ((w : Int) - 1) n = .error "n too large for width!" := by
  induction w with
  | zero =>
    intro n s fuel hn hfuel
    cases fuel with
    | zero => omega
    | succ fuel =>
      have hn0 : n ≠ 0 := by simpa using Nat.pos_iff_ne_zero.mp (by omega)
      simp [mknameLoop, hn0]
  | succ w ih =>
    intro n s fuel hn hfuel
    cases fuel with
    | zero => omega
    | succ fuel =>
      have hn0 : n ≠ 0 := by
        have : 0 < 26 ^ (w + 1) := Nat.pos_pow_of_pos _ (by omega)
        omega
      have hpneg : ¬ (((w + 1 : Nat) : Int) - 1 < 0) := by push_cast; omega
      simp only [mknameLoop, if_neg hn0, if_neg hpneg]
      have harith : ((w + 1 : Nat) : Int) - 1 - 1 = (w : Int) - 1 := by push_cast; omega
      rw [harith]
      have hdiv : 26 ^ w ≤ n / 26 := by
        rw [Nat.le_div_iff_mul_le (by omega)]
        calc 26 ^ w * 26 = 26 ^ (w + 1) := by ring
          _ ≤ n := hn
      have hfuel' : n / 26 + 1 ≤ fuel := by
        have : n / 26 < n := Nat.div_lt_self (by omega) (by omega)
        omega
      exact ih (n / 26) _ fuel hdiv hfuel'

theorem mkname_ok {w n : Nat} (hn : n < 26 ^ w) (pre : List Nat := []) :
    mkname n w pre = .ok (pre ++ cidName w n) := by
  unfold mkname
  rw [show List.replicate w 97 = List.replicate w 97 ++ [] by simp]
  rw [mknameLoop_ok w n [] (n + 1) hn (le_refl _)]
  simp [Except.map]

theorem mkname_err {w n : Nat} (hn : 26 ^ w ≤ n) (pre : List Nat := []) :
    mkname n w pre = .error "n too large for width!" := by
  unfold mkname
  rw [mknameLoop_err w n _ (n + 1) hn (le_refl _)]
  rfl

theorem pyStrLt_append_left (p : List Nat) (a b : List Nat) :
    pyStrLt (p ++ a) (p ++ b) = pyStrLt a b := by
  induction p with
  | nil => rfl
  | cons c r ih => simp [pyStrLt, ih]

theorem pyStrLt_append_samelen :
    ∀ a b : List Nat, a.length = b.length → ∀ x y : Nat,
      (pyStrLt a b = true ∨ (a = b ∧ x < y)) →
      pyStrLt (a ++ [x]) (b ++ [y]) = true := by
  intro a
  induction a with
  | nil =>
    intro b hlen x y h
    cases b with
    | nil =>
      rcases h with h | ⟨_, hxy⟩
      · simp [pyStrLt] at h
      · simp [pyStrLt, hxy]
    | cons d s => simp at hlen
  | cons c r ih =>
    intro b hlen x y h
    cases b with
    | nil => simp at hlen
    | cons d s =>
      simp only [List.cons_append, pyStrLt]
      by_cases hcd : c < d
      · simp [hcd]
      · by_cases hdc : d < c
        · rcases h with h | ⟨heq, _⟩
          · simp [pyStrLt, hcd, hdc] at h
          · cases heq; omega
        · have hce : c = d := Nat.le_antisymm (Nat.le_of_not_lt hdc) (Nat.le_of_not_lt hcd)
          subst hce
          simp only [Nat.lt_irrefl, if_false, if_neg]
          apply ih s (by simpa using hlen) x y
          rcases h with h | ⟨heq, hxy⟩
          · left; simpa [pyStrLt] using h
          · right; exact ⟨by injection heq, hxy⟩

theorem cidName_mono (w : Nat) :
    ∀ m n, m < n → n < 26 ^ w → pyStrLt (cidName w m) (cidName w n) = true := by
  induction w with
  | zero => intro m n hmn hn; omega
  | succ w ih =>
    intro m n hmn hn
    have hnd : n / 26 < 26 ^ w := by
      rw [Nat.div_lt_iff_lt_mul (by omega)]
      calc n < 26 ^ (w + 1) := hn
        _ = 26 ^ w * 26 := by ring
    unfold cidName natDigits
    rw [List.map_append, List.map_append]
    simp only [List.map_cons, List.map_nil]
    apply pyStrLt_append_samelen
    · simp [natDigits_length]
    · rcases Nat.lt_or_ge (m / 26) (n / 26) with hq | hq
      · left
        exact ih (m / 26) (n / 26) hq hnd
      · right
        have hq' : m / 26 = n / 26 :=
          Nat.le_antisymm (Nat.div_le_div_right (Nat.le_of_lt hmn)) hq
        constructor
        · rw [hq']
        · have hm : 26 * (m / 26) + m % 26 = m := Nat.div_add_mod m 26
          have hn' : 26 * (n / 26) + n % 26 = n := Nat.div_add_mod n 26
          omega

theorem cidName_length (w n : Nat) : (cidName w n).length = w := by
  simp [cidName, natDigits_length]

theorem cidName_alpha (w n : Nat) : ∀ c ∈ cidName w n, 97 ≤ c ∧ c ≤ 122 := by
  intro c hc
  simp only [cidName, List.mem_map] at hc
  obtain ⟨d, hd, rfl⟩ := hc
  have := natDigits_lt_26 w n d hd
  omega

theorem cidName_inj {w m n : Nat} (hm : m < 26 ^ w) (hn : n < 26 ^ w)
    (h : cidName w m = cidName w n) : m = n := by
  rcases Nat.lt_trichotomy m n with hlt | heq | hgt
  · have := cidName_mono w m n hlt hn
    rw [h, pyStrLt_irrefl] at this
    exact absurd this (by simp)
  · exact heq
  · have := cidName_mono w n m hgt hm
    rw [h, pyStrLt_irrefl] at this
    exact absurd this (by simp)

theorem rpName_mono {m n : Nat} (hmn : m < n) (hn : n < 26 ^ 6) :
    pyStrLt (rpName m) (rpName n) = true := by
  unfold rpName
  rw [pyStrLt_append_left]
  exact cidName_mono 6 m n hmn hn

theorem rpName_inj {m n : Nat} (hm : m < 26 ^ 6) (hn : n < 26 ^ 6)
    (h : rpName m = rpName n) : m = n := by
  apply cidName_inj hm hn
  unfold rpName at h
  exact List.append_cancel_left h

/-- C6: for indices i < j both representable in the configured width,
name(i) is lexicographically smaller than name(j); each representable
index gets a fixed-length lowercase-alphabetic name; and every
unrepresentable index (n at least 26 to-the width) causes the naming
routine to raise the fatal overflow error. -/
theorem mkname_monotone_and_overflow (w i j n : Nat)
    (hij : i < j) (hj : j < 26 ^ w) (hn : 26 ^ w ≤ n) :
    mkname i w = .ok (cidName w i) ∧ mkname j w = .ok (cidName w j) ∧
    (cidName w i).length = w ∧ (cidName w j).length = w ∧
    (∀ c ∈ cidName w i, 97 ≤ c ∧ c ≤ 122) ∧
    (∀ c ∈ cidName w j, 97 ≤ c ∧ c ≤ 122) ∧
    pyStrLt (cidName w i) (cidName w j) = true ∧
    mkname n w = .error "n too large for width!" := by
  refine ⟨?_, ?_, cidName_length w i, cidName_length w j,
    cidName_alpha w i, cidName_alpha w j, cidName_mono w i j hij hj, ?_⟩
  · rw [mkname_ok (Nat.lt_trans hij hj)]
    rfl
  · rw [mkname_ok hj]
    rfl
  · exact mkname_err hn

/-- Witness for the C6 theorem at width 2, indices 0 < 27, overflow index 676. -/
theorem mkname_monotone_and_overflow_witness :
    (0 < 27 ∧ 27 < 26 ^ 2 ∧ 26 ^ 2 ≤ 676) ∧
    mkname 27 2 = .ok (cidName 2 27) ∧
    pyStrLt (cidName 2 0) (cidName 2 27) = true := by
  have h := mkname_monotone_and_overflow 2 0 27 676 (by decide) (by decide) (by decide)
  exact ⟨⟨by decide, by decide, by decide⟩, h.2.1, h.2.2.2.2.2.2.1⟩

theorem readinLoop_spec (blk : Nat) (hblk : 0 < blk) :
    ∀ fuel tot stdin, tot ≤ fuel →
      readinLoop blk fuel tot stdin = (stdin.take tot, stdin.drop tot) := by
  intro fuel
  induction fuel with
  | zero =>
    intro tot stdin htot
    have : tot = 0 := by omega
    subst this
    simp [readinLoop]
  | succ fuel ih =>
    intro tot stdin htot
    by_cases h0 : tot = 0
    · subst h0; simp [readinLoop]
    · cases stdin with
      | nil =>
        simp [readinLoop, h0]
      | cons b bs =>
        have hslen : 0 < (b :: bs).length := by simp
        have hlen : ((b :: bs).take (min blk tot)).length = min (min blk tot) (b :: bs).length :=
          List.length_take _ _
        have hdpos : ((b :: bs).take (min blk tot)).length ≠ 0 := by omega
        simp only [readinLoop, if_neg h0, if_neg hdpos]
        rw [ih _ _ (by omega)]
        rcases Nat.le_total (min blk tot) (b :: bs).length with hle | hge
        · have hdl : ((b :: bs).take (min blk tot)).length = min blk tot := by omega
          rw [hdl]
          have h1 : (b :: bs).take tot =
              (b :: bs).take (min blk tot) ++ ((b :: bs).drop (min blk tot)).take (tot - min blk tot) := by
            rw [← List.take_add]
            congr 1
            omega
          have h2 : (((b :: bs).drop (min blk tot)).drop (tot - min blk tot)) = (b :: bs).drop tot := by
            rw [List.drop_drop]
            congr 1
            omega
          rw [h1, h2]
        · have hdl : ((b :: bs).take (min blk tot)).length = (b :: bs).length := by omega
          rw [hdl, List.drop_length]
          have htk : (b :: bs).take (min blk tot) = b :: bs := List.take_of_length_le hge
          have htot' : (b :: bs).length ≤ tot := by omega
          rw [htk, List.take_of_length_le htot', List.drop_of_length_le htot']
          simp

theorem readin_spec {blk : Nat} (hblk : 0 < blk) (tot : Nat) (stdin : List Nat) :
    readin blk tot stdin = (stdin.take tot, stdin.drop tot) :=
  readinLoop_spec blk hblk (tot + 1) tot stdin (by omega)

theorem chunkSplitAux_nil (C fuel : Nat) : chunkSplitAux C fuel [] = [] := by
  cases fuel <;> rfl

theorem chunkSplitAux_cons (C fuel b : Nat) (bs : List Nat) :
    chunkSplitAux C (fuel + 1) (b :: bs) =
      (b :: bs).take C :: chunkSplitAux C fuel ((b :: bs).drop C) := rfl

theorem getLast?_cons_of_ne {α : Type} (a : α) (l : List α) (h : l ≠ []) :
    (a :: l).getLast? = l.getLast? := by
  cases l with
  | nil => exact absurd rfl h
  | cons b t => rfl

theorem chunkSplitAux_flatten (C : Nat) (hC : 0 < C) :
    ∀ fuel s, s.length ≤ fuel → (chunkSplitAux C fuel s).flatten = s := by
  intro fuel
  induction fuel with
  | zero =>
    intro s hs
    have : s = [] := List.length_eq_zero.mp (by omega)
    subst this
    rfl
  | succ fuel ih =>
    intro s hs
    cases s with
    | nil => simp [chunkSplitAux_nil]
    | cons b bs =>
      have hsl : (b :: bs).length = bs.length + 1 := List.length_cons b bs
      rw [chunkSplitAux_cons, List.flatten_cons,
        ih _ (by rw [List.length_drop]; omega)]
      exact List.take_append_drop C (b :: bs)

theorem chunkSplitAux_length (C : Nat) (hC : 0 < C) :
    ∀ fuel s, s.length ≤ fuel →
      (chunkSplitAux C fuel s).length = (s.length + C - 1) / C := by
  intro fuel
  induction fuel with
  | zero =>
    intro s hs
    have : s = [] := List.length_eq_zero.mp (by omega)
    subst this
    show (0 : Nat) = (0 + C - 1) / C
    rw [Nat.zero_add, Nat.div_eq_of_lt (by omega)]
  | succ fuel ih =>
    intro s hs
    cases s with
    | nil =>
      rw [chunkSplitAux_nil]
      show (0 : Nat) = (0 + C - 1) / C
      rw [Nat.zero_add, Nat.div_eq_of_lt (by omega)]
    | cons b bs =>
      have hsl : (b :: bs).length = bs.length + 1 := List.length_cons b bs
      rw [chunkSplitAux_cons]
      show (chunkSplitAux C fuel ((b :: bs).drop C)).length + 1 = ((b :: bs).length + C - 1) / C
      rw [ih _ (by rw [List.length_drop]; omega), List.length_drop]
      rcases Nat.le_total (b :: bs).length C with hle | hgt
      · have h1 : (b :: bs).length - C = 0 := by omega
        rw [h1, Nat.zero_add, Nat.div_eq_of_lt (by omega)]
        have h2 : ((b :: bs).length + C - 1) / C = 1 := by
          rw [show (b :: bs).length + C - 1 = ((b :: bs).length - 1) + C by omega,
            Nat.add_div_right _ hC, Nat.div_eq_of_lt (by omega)]
        omega
      · have h2 : (b :: bs).length + C - 1 = ((b :: bs).length - C + C - 1) + C := by omega
        rw [h2, Nat.add_div_right _ hC]

theorem chunkSplitAux_sizes (C : Nat) (hC : 0 < C) :
    ∀ fuel s, s.length ≤ fuel → ∀ l ∈ chunkSplitAux C fuel s, l ≠ [] ∧ l.length ≤ C := by
  intro fuel
  induction fuel with
  | zero =>
    intro s hs l hl
    have : s = [] := List.length_eq_zero.mp (by omega)
    subst this
    simp [chunkSplitAux_nil] at hl
  | succ fuel ih =>
    intro s hs l hl
    cases s with
    | nil => simp [chunkSplitAux_nil] at hl
    | cons b bs =>
      have hsl : (b :: bs).length = bs.length + 1 := List.length_cons b bs
      rw [chunkSplitAux_cons] at hl
      rcases List.mem_cons.mp hl with h | h
      · subst h
        have hlen : ((b :: bs).take C).length = min C (b :: bs).length := List.length_take _ _
        constructor
        · intro hc
          rw [hc] at hlen
          simp at hlen
          omega
        · omega
      · exact ih _ (by rw [List.length_drop]; omega) l h

theorem chunkSplitAux_get_eq_C (C : Nat) (hC : 0 < C) :
    ∀ fuel s, s.length ≤ fuel → ∀ i, i + 1 < (chunkSplitAux C fuel s).length →
      ((chunkSplitAux C fuel s).getD i []).length = C := by
  intro fuel
  induction fuel with
  | zero =>
    intro s hs i hi
    have : s = [] := List.length_eq_zero.mp (by omega)
    subst this
    simp [chunkSplitAux_nil] at hi
  | succ fuel ih =>
    intro s hs i hi
    cases s with
    | nil => simp [chunkSplitAux_nil] at hi
    | cons b bs =>
      have hsl : (b :: bs).length = bs.length + 1 := List.length_cons b bs
      rw [chunkSplitAux_cons] at hi ⊢
      cases i with
      | zero =>
        show ((b :: bs).take C).length = C
        have hlen := List.length_take C (b :: bs)
        have htail : (chunkSplitAux C fuel ((b :: bs).drop C)).length ≠ 0 := by
          simp only [List.length_cons] at hi
          omega
        have hne : (b :: bs).drop C ≠ [] := by
          intro hz
          apply htail
          rw [hz, chunkSplitAux_nil]
          rfl
        have : C < (b :: bs).length := by
          by_contra hcc
          exact hne (List.drop_of_length_le (by omega))
        omega
      | succ i =>
        show ((chunkSplitAux C fuel ((b :: bs).drop C)).getD i []).length = C
        apply ih _ (by rw [List.length_drop]; omega)
        simp only [List.length_cons] at hi
        omega

theorem chunkSplitAux_last (C : Nat) (hC : 0 < C) :
    ∀ fuel s, s.length ≤ fuel → s ≠ [] →
      ∃ l, (chunkSplitAux C fuel s).getLast? = some l ∧
        l.length = if s.length % C = 0 then C else s.length % C := by
  intro fuel
  induction fuel with
  | zero =>
    intro s hs hne
    exact absurd (List.length_eq_zero.mp (by omega)) hne
  | succ fuel ih =>
    intro s hs hne
    cases s with
    | nil => exact absurd rfl hne
    | cons b bs =>
      have hsl : (b :: bs).length = bs.length + 1 := List.length_cons b bs
      rw [chunkSplitAux_cons]
      by_cases hrest : (b :: bs).drop C = []
      · have hlen : (b :: bs).length ≤ C := by
          by_contra hcc
          have := List.length_drop C (b :: bs)
          rw [hrest] at this
          simp at this
          omega
        refine ⟨(b :: bs).take C, ?_, ?_⟩
        · rw [hrest, chunkSplitAux_nil]
          rfl
        · have htk := List.length_take C (b :: bs)
          have hmin : ((b :: bs).take C).length = (b :: bs).length := by omega
          rw [hmin]
          by_cases hmod : (b :: bs).length % C = 0
          · rw [if_pos hmod]
            rcases Nat.lt_or_ge (b :: bs).length C with hlt | hge
            · rw [Nat.mod_eq_of_lt hlt] at hmod
              omega
            · omega
          · rw [if_neg hmod]
            rcases Nat.lt_or_ge (b :: bs).length C with hlt | hge
            · rw [Nat.mod_eq_of_lt hlt]
            · have heq : (b :: bs).length = C := by omega
              rw [heq] at hmod
              simp at hmod
      · obtain ⟨l, hl, hlen⟩ := ih ((b :: bs).drop C) (by rw [List.length_drop]; omega) hrest
        have htne : chunkSplitAux C fuel ((b :: bs).drop C) ≠ [] := by
          intro hz
          rw [hz] at hl
          simp at hl
        refine ⟨l, ?_, ?_⟩
        · rw [getLast?_cons_of_ne _ _ htne, hl]
        · have hCle : C ≤ (b :: bs).length := by
            by_contra hcc
            exact hrest (List.drop_of_length_le (by omega))
          have hmodeq : (b :: bs).length % C = ((b :: bs).length - C) % C := by
            conv_lhs => rw [show (b :: bs).length = ((b :: bs).length - C) + C by omega]
            rw [Nat.add_mod_right]
          rw [hlen, List.length_drop, hmodeq]

theorem catLoop_spec (blk : Nat) (hblk : 0 < blk) :
    ∀ fuel s, s.length ≤ fuel → catLoop blk fuel s = s := by
  intro fuel
  induction fuel with
  | zero =>
    intro s hs
    have : s = [] := List.length_eq_zero.mp (by omega)
    subst this
    rfl
  | succ fuel ih =>
    intro s hs
    cases s with
    | nil => simp [catLoop]
    | cons b bs =>
      have hsl : (b :: bs).length = bs.length + 1 := List.length_cons b bs
      have hne : ((b :: bs).take blk).length ≠ 0 := by
        rw [List.length_take]
        omega
      simp only [catLoop, if_neg hne]
      rw [ih _ (by rw [List.length_drop]; omega)]
      exact List.take_append_drop blk (b :: bs)

theorem catRead_eq {blk : Nat} (hblk : 0 < blk) (s : List Nat) : catRead blk s = s :=
  catLoop_spec blk hblk (s.length + 1) s (by omega)

/-- Unfolding equation for replayBuildMd at a cons cell. -/
theorem replayBuildMd_cons (md : List (List Nat × List Nat)) (l : List Nat)
    (ls : List (List Nat)) :
    replayBuildMd md (l :: ls) =
      (if (pySplit l).length = 0 then replayBuildMd md ls
       else if (pySplit l).length < 2 then .error "IndexError"
       else replayBuildMd (dictSet md ((pySplit l).getD 1 []) ((pySplit l).getD 0 [])) ls) :=
  rfl

/-- Unfolding equation for checkStep once the line has exactly the two
tokens d0 (digest) and d1 (name). -/
theorem checkStep_two_tokens (env : Env) (rs : List (List Nat × List Nat))
    (st : CheckState) (l d0 d1 : List Nat) (hl : pySplit l = [d0, d1]) :
    checkStep env rs st l =
      (if d1 = TOTAL then .ok st
       else
        match dictGet rs d1 with
        | none => .error (.MissingChunk, st)
        | some rsum =>
          if rsum ≠ d0 then
            match chunkIdOf d1 with
            | none => .error (.IndexErr, st)
            | some cid =>
              if (st.remote.map Prod.fst).contains (parNameOf cid) then
                if env.repair then
                  if env.par2ok d1 then
                    .ok ⟨dictSet st.remote d1 (env.repaired d1),
                      (((st.scratch ++ [parNameOf cid, d1, sideName d1]).erase
                        (parNameOf cid)).erase d1).erase (sideName d1)⟩
                  else .error (.RepairFailed,
                    ⟨st.remote, st.scratch ++ [parNameOf cid, d1, sideName d1]⟩)
                else .error (.RepairAvailableButNotRequested, st)
              else .error (.NoParityAvailable, st)
          else .ok st) := by
  unfold checkStep
  rw [hl]
  rfl

/-! ### Claim C7 (ledger reader tolerance) -/

/-- C7 counterexample: on the byte stream "abc\n" (a single one-token
line), the replay-path ledger reader does not skip the short line
silently; it raises an uncaught IndexError at md[d[1]] = d[0] instead of
producing the empty mapping the claim requires. -/
theorem ledger_reader_one_token_not_skipped :
    replayBuildMd [] (pyLines [97, 98, 99, 10]) = .error "IndexError" ∧
    replayBuildMd [] (pyLines [97, 98, 99, 10]) ≠ .ok [] := by
  constructor
  · rfl
  · intro hc
    rw [show replayBuildMd [] (pyLines [97, 98, 99, 10]) = .error "IndexError" from rfl] at hc
    exact Except.noConfusion hc

/-- C7 (amended): a line with fewer than two whitespace-separated tokens
is skipped silently at the verification-path ledger reader; at the
replay-path reader only zero-token lines are skipped silently, while a
line with exactly one token raises an uncaught IndexError. -/
theorem ledger_reader_skip_behaviour (env : Env) (rs : List (List Nat × List Nat))
    (st : CheckState) (l : List Nat) (ls : List (List Nat))
    (md : List (List Nat × List Nat)) (h : (pySplit l).length < 2) :
    checkStep env rs st l = .ok st ∧
    ((pySplit l).length = 0 → replayBuildMd md (l :: ls) = replayBuildMd md ls) ∧
    ((pySplit l).length = 1 → replayBuildMd md (l :: ls) = .error "IndexError") := by
  refine ⟨?_, ?_, ?_⟩
  · unfold checkStep
    rw [if_pos h]
  · intro h0
    rw [replayBuildMd_cons, if_pos h0]
  · intro h1
    rw [replayBuildMd_cons, if_neg (by omega), if_pos (by omega)]

/-- Witness for the amended C7 theorem on a single-space line (zero
tokens) together with the one-token crash shown on "abc". -/
theorem ledger_reader_skip_behaviour_witness :
    (pySplit [32]).length < 2 ∧
    checkStep ⟨false, fun _ => false, fun _ => []⟩ [] ⟨[], []⟩ [32] = .ok ⟨[], []⟩ ∧
    replayBuildMd [] [[32]] = replayBuildMd [] [] ∧
    replayBuildMd [] [[97, 98, 99]] = .error "IndexError" := by
  have h1 := ledger_reader_skip_behaviour ⟨false, fun _ => false, fun _ => []⟩ []
    ⟨[], []⟩ [32] [] [] (by decide)
  have h2 := ledger_reader_skip_behaviour ⟨false, fun _ => false, fun _ => []⟩ []
    ⟨[], []⟩ [97, 98, 99] [] [] (by decide)
  exact ⟨by decide, h1.1, h1.2.1 (by decide), h2.2.2 (by decide)⟩

/-! ### Claim C5 (repair scratch cleanup) -/

/-- C5 counterexample: a verification pass on a remote whose chunk
rp-aaaaaa disagrees with its ledger digest, with a parity artifact
present, repair requested and the erasure-coding engine reporting
failure, raises RepairFailed while the scratch copies of the parity
artifact, the corrupted chunk and the engine side file are all still
present in local scratch storage (the raise skips the unlink calls), so
the scratch is not cleaned on the failure path as claimed. -/
theorem repair_failure_leaves_scratch :
    check_pipe (fun s => 104 :: s) ⟨true, fun _ => false, fun _ => [7]⟩
      [([114, 112, 45, 97, 97, 97, 97, 97, 97], [1, 2]),
       (parNameOf [97, 97, 97, 97, 97, 97], [9]),
       (md5Name, manifestLine [120] [114, 112, 45, 97, 97, 97, 97, 97, 97])] =
      .error (.RepairFailed,
        ⟨[([114, 112, 45, 97, 97, 97, 97, 97, 97], [1, 2]),
          (parNameOf [97, 97, 97, 97, 97, 97], [9]),
          (md5Name, manifestLine [120] [114, 112, 45, 97, 97, 97, 97, 97, 97])],
         [parNameOf [97, 97, 97, 97, 97, 97], [114, 112, 45, 97, 97, 97, 97, 97, 97],
          sideName [114, 112, 45, 97, 97, 97, 97, 97, 97]]⟩) ∧
    ([parNameOf [97, 97, 97, 97, 97, 97], [114, 112, 45, 97, 97, 97, 97, 97, 97],
      sideName [114, 112, 45, 97, 97, 97, 97, 97, 97]] : List (List Nat)) ≠ [] := by
  constructor
  · rfl
  · decide

/-- C5 (amended): on every repair attempt the scratch copies of the
parity artifact, the corrupted chunk and the engine side file are
removed on the success path; on the failure path the RepairFailed
exception propagates before the unlink calls, leaving all three in
scratch. -/
theorem repair_scratch_cleanup (env : Env) (rs : List (List Nat × List Nat))
    (st : CheckState) (l d0 d1 s cid : List Nat)
    (hl : pySplit l = [d0, d1]) (hT : d1 ≠ TOTAL)
    (hs : dictGet rs d1 = some s) (hmm : s ≠ d0)
    (hcid : chunkIdOf d1 = some cid)
    (hpar : (st.remote.map Prod.fst).contains (parNameOf cid) = true)
    (hrep : env.repair = true) (hscr : st.scratch = []) :
    (env.par2ok d1 = true →
      checkStep env rs st l = .ok ⟨dictSet st.remote d1 (env.repaired d1), []⟩) ∧
    (env.par2ok d1 = false →
      checkStep env rs st l =
        .error (.RepairFailed, ⟨st.remote, [parNameOf cid, d1, sideName d1]⟩)) := by
  have hbody : ∀ b : Bool, env.par2ok d1 = b →
      checkStep env rs st l =
        (if b then
          .ok ⟨dictSet st.remote d1 (env.repaired d1),
            ((([parNameOf cid, d1, sideName d1].erase (parNameOf cid)).erase d1).erase
              (sideName d1))⟩
        else .error (.RepairFailed, ⟨st.remote, [parNameOf cid, d1, sideName d1]⟩)) := by
    intro b hb
    rw [checkStep_two_tokens env rs st l d0 d1 hl, if_neg hT, hs]
    simp only
    rw [if_pos hmm, hcid]
    simp only
    rw [if_pos hpar, if_pos hrep, hscr, hb]
    cases b with
    | true => simp
    | false => simp
  constructor
  · intro hok
    rw [hbody true hok]
    simp [List.erase_cons_head]
  · intro hfail
    rw [hbody false hfail]
    simp

/-- Witness for the amended C5 theorem on the concrete remote used by the
counterexample, with a succeeding engine. -/
theorem repair_scratch_cleanup_witness :
    pySplit (manifestLine [120] [114, 112, 45, 97, 97, 97, 97, 97, 97]) =
      [[120], [114, 112, 45, 97, 97, 97, 97, 97, 97]] ∧
    checkStep ⟨true, fun _ => true, fun _ => [7]⟩
      [([114, 112, 45, 97, 97, 97, 97, 97, 97], [104, 1, 2])]
      ⟨[([114, 112, 45, 97, 97, 97, 97, 97, 97], [1, 2]),
        (parNameOf [97, 97, 97, 97, 97, 97], [9])], []⟩
      (manifestLine [120] [114, 112, 45, 97, 97, 97, 97, 97, 97]) =
      .ok ⟨dictSet [([114, 112, 45, 97, 97, 97, 97, 97, 97], [1, 2]),
        (parNameOf [97, 97, 97, 97, 97, 97], [9])]
          [114, 112, 45, 97, 97, 97, 97, 97, 97] [7], []⟩ := by
  have h := repair_scratch_cleanup ⟨true, fun _ => true, fun _ => [7]⟩
    [([114, 112, 45, 97, 97, 97, 97, 97, 97], [104, 1, 2])]
    ⟨[([114, 112, 45, 97, 97, 97, 97, 97, 97], [1, 2]),
      (parNameOf [97, 97, 97, 97, 97, 97], [9])], []⟩
    (manifestLine [120] [114, 112, 45, 97, 97, 97, 97, 97, 97])
    [120] [114, 112, 45, 97, 97, 97, 97, 97, 97] [104, 1, 2] [97, 97, 97, 97, 97, 97]
    (by decide) (by decide) (by decide) (by decide) (by decide) (by decide) rfl rfl
  exact ⟨by decide, h.1 rfl⟩

/-! ### Claim C3 (verification classification) -/

/-- C3: classification of every non-TOTAL ledger entry during
verification: a name absent from the remote inventory is fatal
MissingChunk; a present name with a differing digest fails
NoParityAvailable when no parity artifact exists, fails
RepairAvailableButNotRequested when one exists but repair was not
requested, and, when repair was requested and the engine succeeds, the
repaired chunk is re-uploaded under its original name d1 and the entry
passes (the result is ok for every possible repaired content and the
inventory rs is never re-consulted for it); a matching digest passes,
and a passing entry advances the loop to the next entry. -/
theorem check_entry_classification (env : Env) (rs : List (List Nat × List Nat))
    (st : CheckState) (l d0 d1 : List Nat)
    (hl : pySplit l = [d0, d1]) (hT : d1 ≠ TOTAL) :
    (dictGet rs d1 = none → checkStep env rs st l = .error (.MissingChunk, st)) ∧
    (∀ s cid, dictGet rs d1 = some s → s ≠ d0 → chunkIdOf d1 = some cid →
      ((st.remote.map Prod.fst).contains (parNameOf cid) = false →
        checkStep env rs st l = .error (.NoParityAvailable, st)) ∧
      ((st.remote.map Prod.fst).contains (parNameOf cid) = true → env.repair = false →
        checkStep env rs st l = .error (.RepairAvailableButNotRequested, st)) ∧
      ((st.remote.map Prod.fst).contains (parNameOf cid) = true → env.repair = true →
        env.par2ok d1 = true →
        checkStep env rs st l =
          .ok ⟨dictSet st.remote d1 (env.repaired d1),
            (((st.scratch ++ [parNameOf cid, d1, sideName d1]).erase
              (parNameOf cid)).erase d1).erase (sideName d1)⟩)) ∧
    (∀ s, dictGet rs d1 = some s → s = d0 → checkStep env rs st l = .ok st) ∧
    (∀ st1 ls, checkStep env rs st l = .ok st1 →
      checkLoop env rs st (l :: ls) = checkLoop env rs st1 ls) := by
  refine ⟨?_, ?_, ?_, ?_⟩
  · intro hnone
    rw [checkStep_two_tokens env rs st l d0 d1 hl, if_neg hT, hnone]
  · intro s cid hs hmm hcid
    refine ⟨?_, ?_, ?_⟩
    · intro hnopar
      rw [checkStep_two_tokens env rs st l d0 d1 hl, if_neg hT, hs]
      simp only
      rw [if_pos hmm, hcid]
      simp only
      rw [if_neg (by rw [hnopar]; exact Bool.false_ne_true)]
    · intro hpar hnorep
      rw [checkStep_two_tokens env rs st l d0 d1 hl, if_neg hT, hs]
      simp only
      rw [if_pos hmm, hcid]
      simp only
      rw [if_pos hpar, if_neg (by rw [hnorep]; exact Bool.false_ne_true)]
    · intro hpar hrep hok
      rw [checkStep_two_tokens env rs st l d0 d1 hl, if_neg hT, hs]
      simp only
      rw [if_pos hmm, hcid]
      simp only
      rw [if_pos hpar, if_pos hrep, if_pos hok]
  · intro s hs hsame
    rw [checkStep_two_tokens env rs st l d0 d1 hl, if_neg hT, hs]
    simp only
    rw [if_neg (by simpa using hsame)]
  · intro st1 ls hstep
    show (match checkStep env rs st l with
      | .error e => .error e
      | .ok st2 => checkLoop env rs st2 ls) = checkLoop env rs st1 ls
    rw [hstep]

/-- Witness for the C3 theorem: a matching entry passes and advances
verification past it. -/
theorem check_entry_classification_witness :
    pySplit (manifestLine [104, 1] [114, 112, 45, 97, 97, 97, 97, 97, 97]) =
      [[104, 1], [114, 112, 45, 97, 97, 97, 97, 97, 97]] ∧
    checkStep ⟨false, fun _ => false, fun _ => []⟩
      [([114, 112, 45, 97, 97, 97, 97, 97, 97], [104, 1])] ⟨[], []⟩
      (manifestLine [104, 1] [114, 112, 45, 97, 97, 97, 97, 97, 97]) = .ok ⟨[], []⟩ ∧
    checkLoop ⟨false, fun _ => false, fun _ => []⟩
      [([114, 112, 45, 97, 97, 97, 97, 97, 97], [104, 1])] ⟨[], []⟩
      [manifestLine [104, 1] [114, 112, 45, 97, 97, 97, 97, 97, 97]] =
      checkLoop ⟨false, fun _ => false, fun _ => []⟩
        [([114, 112, 45, 97, 97, 97, 97, 97, 97], [104, 1])] ⟨[], []⟩ [] := by
  have h := check_entry_classification ⟨false, fun _ => false, fun _ => []⟩
    [([114, 112, 45, 97, 97, 97, 97, 97, 97], [104, 1])] ⟨[], []⟩
    (manifestLine [104, 1] [114, 112, 45, 97, 97, 97, 97, 97, 97])
    [104, 1] [114, 112, 45, 97, 97, 97, 97, 97, 97] (by decide) (by decide)
  have hok := h.2.2.1 [104, 1] (by decide) rfl
  exact ⟨by decide, hok, h.2.2.2 ⟨[], []⟩ [] hok⟩

/-! ### Claim C4 (replay warnings) and claim C10 (missing TOTAL) -/

/-- The chunk emission loop characterised: the emitted bytes are the
concatenation of the remote contents of every non-TOTAL key regardless
of any digest comparison, and the warning count is the number of
non-TOTAL keys whose recomputed digest differs from the ledger entry. -/
theorem replayEmit_spec (H : List Nat → List Nat) (remote : List (List Nat × List Nat))
    (blk : Nat) (md : List (List Nat × List Nat)) (hb : 0 < blk) :
    ∀ keys, replayEmit H remote blk md keys =
      (((keys.filter fun f => f ≠ TOTAL).map fun f => (dictGet remote f).getD []).flatten,
       ((keys.filter fun f => f ≠ TOTAL).filter
         fun f => H ((dictGet remote f).getD []) ≠ (dictGet md f).getD []).length) := by
  intro keys
  induction keys with
  | nil => rfl
  | cons f fs ih =>
    by_cases hf : f = TOTAL
    · subst hf
      show replayEmit H remote blk md (TOTAL :: fs) = _
      unfold replayEmit
      rw [if_pos rfl, ih]
      have hfil : (TOTAL :: fs).filter (fun f => f ≠ TOTAL) =
          fs.filter (fun f => f ≠ TOTAL) := by
        rw [List.filter_cons, if_neg (by simp)]
      rw [hfil]
    · unfold replayEmit
      rw [if_neg hf]
      dsimp only
      rw [ih]
      have hfil : (f :: fs).filter (fun f => f ≠ TOTAL) =
          f :: fs.filter (fun f => f ≠ TOTAL) := by
        rw [List.filter_cons, if_pos (by simpa using hf)]
      rw [hfil, catRead_eq hb]
      dsimp only
      apply Prod.ext <;> dsimp only
      · rw [List.map_cons, List.flatten_cons]
      · rw [List.filter_cons]
        by_cases hmm : H ((dictGet remote f).getD []) ≠ (dictGet md f).getD []
        · rw [if_pos hmm, if_pos (by simpa using hmm), List.length_cons]
          omega
        · rw [if_neg hmm, if_neg (by simpa using hmm)]
          simp

/-- C4: once the name-to-digest mapping md contains a TOTAL entry, the
post-parse phase of replay always completes with the done outcome: the
bytes of every non-TOTAL key are emitted to the output sink in sorted
key order whether or not their digests match, each per-chunk digest
mismatch only increments the warning counter, and a whole-stream digest
disagreement with the TOTAL entry only sets the warning flag; no
checksum mismatch aborts replay. -/
theorem replay_mismatch_nonfatal (H : List Nat → List Nat)
    (remote : List (List Nat × List Nat)) (blk : Nat)
    (md : List (List Nat × List Nat)) (t : List Nat)
    (hb : 0 < blk) (hT : dictGet md TOTAL = some t) :
    replayFromMd H remote blk md =
      .done
        ((((List.insertionSort pyLe (dictKeys md)).filter fun f => f ≠ TOTAL).map
          fun f => (dictGet remote f).getD []).flatten)
        (((List.insertionSort pyLe (dictKeys md)).filter fun f => f ≠ TOTAL).filter
          fun f => H ((dictGet remote f).getD []) ≠ (dictGet md f).getD []).length
        (decide (H ((((List.insertionSort pyLe (dictKeys md)).filter fun f => f ≠ TOTAL).map
          fun f => (dictGet remote f).getD []).flatten) ≠ t)) := by
  unfold replayFromMd
  rw [replayEmit_spec H remote blk md hb, hT]

/-- Witness for the C4 theorem: a one-chunk remote whose content
disagrees with its ledger digest still replays completely, emitting the
chunk bytes with one warning and a TOTAL warning flag. -/
theorem replay_mismatch_nonfatal_witness :
    (0 < 2 ∧ dictGet [([114, 112, 45, 97, 97, 97, 97, 97, 97], [120]), (TOTAL, [121])]
      TOTAL = some [121]) ∧
    replayFromMd (fun s => 104 :: s) [([114, 112, 45, 97, 97, 97, 97, 97, 97], [5, 6])] 2
      [([114, 112, 45, 97, 97, 97, 97, 97, 97], [120]), (TOTAL, [121])] =
      .done [5, 6] 1 true := by
  have h := replay_mismatch_nonfatal (fun s => 104 :: s)
    [([114, 112, 45, 97, 97, 97, 97, 97, 97], [5, 6])] 2
    [([114, 112, 45, 97, 97, 97, 97, 97, 97], [120]), (TOTAL, [121])] [121]
    (by decide) (by decide)
  refine ⟨⟨by decide, by decide⟩, ?_⟩
  rw [h]
  rfl

/-- C10: replay indexes the parsed mapping at TOTAL unconditionally after
emitting all chunk bytes, even when checksum-skipping was requested: for
a fetched manifest whose parsed mapping has no TOTAL entry, replay emits
the full output of every ledger key and then terminates with the
uncaught KeyError instead of completing. -/
theorem replay_missing_total (H : List Nat → List Nat)
    (par2ok : List Nat → Bool) (repaired : List Nat → List Nat) (args : Args)
    (remote : List (List Nat × List Nat)) (buf : List Nat)
    (md : List (List Nat × List Nat))
    (hnc : args.nocheck = true) (hb : 0 < args.blocksize)
    (hbuf : dictGet remote md5Name = some buf)
    (hmd : replayBuildMd [] (pyLines buf) = .ok md)
    (hT : dictGet md TOTAL = none) :
    replay H par2ok repaired args remote =
      .totalKeyError
        ((((List.insertionSort pyLe (dictKeys md)).filter fun f => f ≠ TOTAL).map
          fun f => (dictGet remote f).getD []).flatten)
        (((List.insertionSort pyLe (dictKeys md)).filter fun f => f ≠ TOTAL).filter
          fun f => H ((dictGet remote f).getD []) ≠ (dictGet md f).getD []).length := by
  unfold replay
  simp only [hnc, eq_self_iff_true, if_true, hbuf, Option.getD_some, hmd]
  unfold replayFromMd
  rw [replayEmit_spec H remote args.blocksize md hb, hT]

/-- Witness for the C10 theorem: a manifest with a single chunk line and
no TOTAL line replays its full chunk content and then hits the KeyError. -/
theorem replay_missing_total_witness :
    ((⟨2, 1, 2, true, false, false⟩ : Args).nocheck = true ∧
      replayBuildMd [] (pyLines (manifestLine [104, 5, 6] [114, 112, 45, 97, 97, 97, 97, 97, 97])) =
        .ok [([114, 112, 45, 97, 97, 97, 97, 97, 97], [104, 5, 6])]) ∧
    replay (fun s => 104 :: s) (fun _ => false) (fun _ => []) ⟨2, 1, 2, true, false, false⟩
      [([114, 112, 45, 97, 97, 97, 97, 97, 97], [5, 6]),
       (md5Name, manifestLine [104, 5, 6] [114, 112, 45, 97, 97, 97, 97, 97, 97])] =
      .totalKeyError [5, 6] 0 := by
  have h := replay_missing_total (fun s => 104 :: s) (fun _ => false) (fun _ => [])
    ⟨2, 1, 2, true, false, false⟩
    [([114, 112, 45, 97, 97, 97, 97, 97, 97], [5, 6]),
     (md5Name, manifestLine [104, 5, 6] [114, 112, 45, 97, 97, 97, 97, 97, 97])]
    (manifestLine [104, 5, 6] [114, 112, 45, 97, 97, 97, 97, 97, 97])
    [([114, 112, 45, 97, 97, 97, 97, 97, 97], [104, 5, 6])]
    rfl (by decide) (by decide) (by decide) (by decide)
  refine ⟨⟨rfl, by decide⟩, ?_⟩
  rw [h]
  rfl

/-! ### Claim C9 (verify-only exit status) -/

theorem splitByteAux_ne_nil (sep : Nat) : ∀ cur l, splitByteAux sep cur l ≠ [] := by
  intro cur l
  induction l generalizing cur with
  | nil => simp [splitByteAux]
  | cons c r ih =>
    unfold splitByteAux
    by_cases h : c = sep
    · rw [if_pos h]
      simp
    · rw [if_neg h]
      exact ih _

theorem splitByteAux_cons_ne (sep c : Nat) (cur rest : List Nat) (h : ¬ c = sep) :
    splitByteAux sep cur (c :: rest) = splitByteAux sep (cur ++ [c]) rest := by
  conv_lhs => unfold splitByteAux
  rw [if_neg h]

theorem splitByteAux_cons_eq (sep : Nat) (cur rest : List Nat) :
    splitByteAux sep cur (sep :: rest) = cur :: splitByteAux sep [] rest := by
  conv_lhs => unfold splitByteAux
  rw [if_pos rfl]

theorem chunkIdOf_of_rpPrefix {nm : List Nat} (h : rpPre.isPrefixOf nm = true) :
    ∃ cid, chunkIdOf nm = some cid := by
  have hpre : rpPre <+: nm := List.isPrefixOf_iff_prefix.mp h
  obtain ⟨t, ht⟩ := hpre
  have h1 : pySplitChar 45 nm = [114, 112] :: splitByteAux 45 [] t := by
    rw [← ht]
    show splitByteAux 45 [] (114 :: 112 :: 45 :: t) = _
    rw [splitByteAux_cons_ne 45 114 [] _ (by omega)]
    show splitByteAux 45 [114] (112 :: 45 :: t) = _
    rw [splitByteAux_cons_ne 45 112 [114] _ (by omega)]
    show splitByteAux 45 [114, 112] (45 :: t) = _
    rw [splitByteAux_cons_eq 45 [114, 112] t]
  unfold chunkIdOf
  rw [h1]
  cases hsp : splitByteAux 45 [] t with
  | nil => exact absurd hsp (splitByteAux_ne_nil 45 [] t)
  | cons a r => exact ⟨a, rfl⟩

theorem dictGet_some_key {α : Type} :
    ∀ (md : List (List Nat × α)) (k : List Nat) (v : α),
      dictGet md k = some v → ∃ p, p ∈ md ∧ p.1 = k := by
  intro md
  induction md with
  | nil =>
    intro k v h
    exact absurd h (by simp [dictGet])
  | cons q r ih =>
    intro k v h
    obtain ⟨k1, v1⟩ := q
    unfold dictGet at h
    by_cases hk : k1 = k
    · exact ⟨(k1, v1), List.mem_cons_self _ _, hk⟩
    · rw [if_neg hk] at h
      obtain ⟨p, hp, hpk⟩ := ih k v h
      exact ⟨p, List.mem_cons_of_mem _ hp, hpk⟩

theorem remoteSums_keys (H : List Nat → List Nat) (remote : List (List Nat × List Nat)) :
    ∀ p ∈ remoteSums H remote, rpPre.isPrefixOf p.1 = true := by
  intro p hp
  unfold remoteSums at hp
  simp only [List.mem_map] at hp
  obtain ⟨q, hq, rfl⟩ := hp
  simp only [List.mem_filter] at hq
  exact hq.2

/-- Zeta-reduced unfolding equation for checkStep. -/
theorem checkStep_eq (env : Env) (rs : List (List Nat × List Nat)) (st : CheckState)
    (l : List Nat) :
    checkStep env rs st l =
      (if (pySplit l).length < 2 then .ok st
       else if (pySplit l).getD 1 [] = TOTAL then .ok st
       else
        match dictGet rs ((pySplit l).getD 1 []) with
        | none => .error (.MissingChunk, st)
        | some rsum =>
          if rsum ≠ (pySplit l).getD 0 [] then
            match chunkIdOf ((pySplit l).getD 1 []) with
            | none => .error (.IndexErr, st)
            | some cid =>
              if (st.remote.map Prod.fst).contains (parNameOf cid) then
                if env.repair then
                  if env.par2ok ((pySplit l).getD 1 []) then
                    .ok ⟨dictSet st.remote ((pySplit l).getD 1 [])
                        (env.repaired ((pySplit l).getD 1 [])),
                      (((st.scratch ++ [parNameOf cid, (pySplit l).getD 1 [],
                        sideName ((pySplit l).getD 1 [])]).erase (parNameOf cid)).erase
                        ((pySplit l).getD 1 [])).erase (sideName ((pySplit l).getD 1 []))⟩
                  else .error (.RepairFailed, ⟨st.remote,
                    st.scratch ++ [parNameOf cid, (pySplit l).getD 1 [],
                      sideName ((pySplit l).getD 1 [])]⟩)
                else .error (.RepairAvailableButNotRequested, st)
              else .error (.NoParityAvailable, st)
          else .ok st) := rfl

theorem checkStep_not_indexErr (env : Env) (rs : List (List Nat × List Nat))
    (st : CheckState) (l : List Nat)
    (hrs : ∀ p ∈ rs, rpPre.isPrefixOf p.1 = true)
    (e : CheckErr) (st1 : CheckState)
    (h : checkStep env rs st l = .error (e, st1)) : e ≠ .IndexErr := by
  rw [checkStep_eq] at h
  by_cases hlen : (pySplit l).length < 2
  · rw [if_pos hlen] at h
    exact Except.noConfusion h
  rw [if_neg hlen] at h
  by_cases hTot : (pySplit l).getD 1 [] = TOTAL
  · rw [if_pos hTot] at h
    exact Except.noConfusion h
  rw [if_neg hTot] at h
  cases hdg : dictGet rs ((pySplit l).getD 1 []) with
  | none =>
    rw [hdg] at h
    dsimp only at h
    injection h with h1
    injection h1 with he _
    subst he
    decide
  | some rsum =>
    rw [hdg] at h
    dsimp only at h
    by_cases hmm : rsum ≠ (pySplit l).getD 0 []
    · rw [if_pos hmm] at h
      obtain ⟨p, hp, hpk⟩ := dictGet_some_key rs _ rsum hdg
      obtain ⟨cid, hcid⟩ := chunkIdOf_of_rpPrefix (hpk ▸ hrs p hp)
      rw [hcid] at h
      dsimp only at h
      by_cases hpar : (st.remote.map Prod.fst).contains (parNameOf cid) = true
      · rw [if_pos hpar] at h
        by_cases hrep : env.repair = true
        · rw [if_pos hrep] at h
          by_cases hok : env.par2ok ((pySplit l).getD 1 []) = true
          · rw [if_pos hok] at h
            exact Except.noConfusion h
          · rw [if_neg hok] at h
            injection h with h1
            injection h1 with he _
            subst he
            decide
        · rw [if_neg hrep] at h
          injection h with h1
          injection h1 with he _
          subst he
          decide
      · rw [if_neg hpar] at h
        injection h with h1
        injection h1 with he _
        subst he
        decide
    · rw [if_neg hmm] at h
      exact Except.noConfusion h

theorem checkLoop_not_indexErr (env : Env) (rs : List (List Nat × List Nat))
    (hrs : ∀ p ∈ rs, rpPre.isPrefixOf p.1 = true) :
    ∀ ls st e st1, checkLoop env rs st ls = .error (e, st1) → e ≠ .IndexErr := by
  intro ls
  induction ls with
  | nil =>
    intro st e st1 h
    exact Except.noConfusion h
  | cons l r ih =>
    intro st e st1 h
    have hcons : checkLoop env rs st (l :: r) =
        (match checkStep env rs st l with
         | .error e1 => .error e1
         | .ok st2 => checkLoop env rs st2 r) := rfl
    rw [hcons] at h
    cases hstep : checkStep env rs st l with
    | error e1 =>
      rw [hstep] at h
      dsimp only at h
      injection h with h1
      obtain ⟨e2, st2⟩ := e1
      injection h1 with he _
      subst he
      exact checkStep_not_indexErr env rs st l hrs _ _ hstep
    | ok st2 =>
      rw [hstep] at h
      dsimp only at h
      exact ih st2 e st1 h

/-- Zeta-reduced unfolding equation for check_pipe. -/
theorem check_pipe_eq (H : List Nat → List Nat) (env : Env)
    (remote : List (List Nat × List Nat)) :
    check_pipe H env remote =
      (match checkLoop env (remoteSums H remote) ⟨remote, []⟩
          (pyLines ((dictGet remote md5Name).getD [])) with
       | .error e => .error e
       | .ok st => .ok ((dictGet remote md5Name).getD [], st)) := rfl

theorem check_pipe_not_indexErr (H : List Nat → List Nat) (env : Env)
    (remote : List (List Nat × List Nat)) (e : CheckErr) (st1 : CheckState)
    (h : check_pipe H env remote = .error (e, st1)) : e ≠ .IndexErr := by
  rw [check_pipe_eq] at h
  cases hloop : checkLoop env (remoteSums H remote) ⟨remote, []⟩
      (pyLines ((dictGet remote md5Name).getD [])) with
  | error e1 =>
    rw [hloop] at h
    dsimp only at h
    injection h with h1
    obtain ⟨e2, st2⟩ := e1
    injection h1 with he _
    subst he
    exact checkLoop_not_indexErr env (remoteSums H remote) (remoteSums_keys H remote)
      _ _ _ _ hloop
  | ok v =>
    rw [hloop] at h
    exact Except.noConfusion h

/-- C9: a verify-only invocation exits with status 0 exactly when the
verification pass succeeds, and exits with status 1 whenever
verification fails: every fatal condition check_pipe can reach (missing
chunk, checksum mismatch without parity, repairable mismatch without the
repair flag, repair engine failure) is raised as a ChecksumError, which
the main block catches and maps to exit status 1, while a clean pass
leaves the status at 0. -/
theorem verify_exit_status (H : List Nat → List Nat) (env : Env)
    (remote : List (List Nat × List Nat)) :
    (mainVerify H env remote = 0 ↔ (check_pipe H env remote).isOk = true) ∧
    ((check_pipe H env remote).isOk = false → mainVerify H env remote = 1) := by
  cases hc : check_pipe H env remote with
  | ok v =>
    constructor
    · unfold mainVerify
      rw [hc]
      exact ⟨fun _ => rfl, fun _ => rfl⟩
    · intro hfalse
      exact Bool.noConfusion hfalse
  | error p =>
    obtain ⟨e, st1⟩ := p
    have hne : e ≠ .IndexErr := check_pipe_not_indexErr H env remote e st1 hc
    constructor
    · unfold mainVerify
      rw [hc]
      dsimp only
      rw [if_neg hne]
      exact ⟨fun h01 => absurd h01 (by omega), fun hok => Bool.noConfusion hok⟩
    · intro _
      unfold mainVerify
      rw [hc]
      dsimp only
      rw [if_neg hne]

/-! ### Characterisation of the send loop -/

theorem chunkSplitAux_fuel (C : Nat) (hC : 0 < C) :
    ∀ fuel1 fuel2 s, s.length ≤ fuel1 → s.length ≤ fuel2 →
      chunkSplitAux C fuel1 s = chunkSplitAux C fuel2 s := by
  intro fuel1
  induction fuel1 with
  | zero =>
    intro fuel2 s h1 h2
    have : s = [] := List.length_eq_zero.mp (by omega)
    subst this
    rw [chunkSplitAux_nil, chunkSplitAux_nil]
  | succ fuel1 ih =>
    intro fuel2 s h1 h2
    cases s with
    | nil => rw [chunkSplitAux_nil, chunkSplitAux_nil]
    | cons b bs =>
      have hsl : (b :: bs).length = bs.length + 1 := List.length_cons b bs
      cases fuel2 with
      | zero => omega
      | succ fuel2 =>
        rw [chunkSplitAux_cons, chunkSplitAux_cons]
        rw [ih fuel2 _ (by rw [List.length_drop]; omega) (by rw [List.length_drop]; omega)]

theorem chunkSplit_cons (C : Nat) (hC : 0 < C) (s : List Nat) (hs : s ≠ []) :
    chunkSplit C s = s.take C :: chunkSplit C (s.drop C) := by
  cases s with
  | nil => exact absurd rfl hs
  | cons b bs =>
    show chunkSplitAux C (b :: bs).length (b :: bs) = _
    have hsl : (b :: bs).length = bs.length + 1 := List.length_cons b bs
    rw [hsl, chunkSplitAux_cons]
    rw [chunkSplitAux_fuel C hC bs.length ((b :: bs).drop C).length _
      (by rw [List.length_drop]; omega) (le_refl _)]
    rfl

theorem chunkSplit_length_le (C : Nat) (hC : 0 < C) (s : List Nat) :
    (chunkSplit C s).length ≤ s.length := by
  rw [chunkSplit, chunkSplitAux_length C hC s.length s (le_refl _)]
  rcases Nat.eq_zero_or_pos s.length with h0 | hp
  · rw [h0]
    rw [Nat.zero_add, Nat.div_eq_of_lt (by omega)]
  · have h1 : s.length + C - 1 = (s.length - 1) + C := by omega
    rw [h1, Nat.add_div_right _ hC]
    have := Nat.div_le_self (s.length - 1) C
    omega

/-- The send loop characterised: with positive chunk and block sizes,
enough fuel and all chunk indices representable, the loop succeeds and
seals exactly the chunkSplit partition of stdin under names rp-mkname(n),
uploading each chunk (preceded by its parity artifact when requested)
and feeding exactly stdin to the whole-stream digest. -/
theorem depositLoop_spec (parData : Nat → List Nat) (args : Args)
    (hC : 0 < args.chunksize) (hb : 0 < args.blocksize) :
    ∀ fuel stdin n tot acc rem live inflight trace,
      stdin.length + 1 ≤ fuel →
      n + stdin.length + 1 ≤ 26 ^ 6 →
      ∃ o, depositLoop parData args fuel stdin n tot acc rem live inflight trace =
          .ok o ∧
        o.acc = acc ++ nameChunks n (chunkSplit args.chunksize stdin) ∧
        o.rem = rem ++ uploadsOf args.parchive parData n (chunkSplit args.chunksize stdin) ∧
        o.tot = tot ++ stdin ∧
        o.flen = n + (chunkSplit args.chunksize stdin).length + 1 := by
  intro fuel
  induction fuel with
  | zero =>
    intro stdin n tot acc rem live inflight trace hfuel hbound
    omega
  | succ fuel ih =>
    intro stdin n tot acc rem live inflight trace hfuel hbound
    have hn6 : n < 26 ^ 6 := by omega
    have hmk : mkname n = .ok (cidName 6 n) := by
      rw [mkname_ok hn6, List.nil_append]
    unfold depositLoop
    rw [hmk]
    dsimp only
    rw [readin_spec hb args.chunksize stdin]
    dsimp only
    cases stdin with
    | nil =>
      simp only [List.take_nil, List.drop_nil]
      rw [if_neg (by simp)]
      refine ⟨_, rfl, ?_, ?_, ?_, ?_⟩
      · show acc = acc ++ nameChunks n (chunkSplit args.chunksize [])
        rw [chunkSplit, chunkSplitAux_nil]
        rw [show nameChunks n [] = [] from rfl, List.append_nil]
      · show rem = rem ++ uploadsOf args.parchive parData n (chunkSplit args.chunksize [])
        rw [chunkSplit, chunkSplitAux_nil]
        rw [show uploadsOf args.parchive parData n [] = [] from rfl, List.append_nil]
      · show tot ++ [] = tot ++ []
        rfl
      · show n + 1 = n + (chunkSplit args.chunksize []).length + 1
        rw [chunkSplit, chunkSplitAux_nil]
        rfl
    | cons b bs =>
      have hsl : (b :: bs).length = bs.length + 1 := List.length_cons b bs
      have htk : ((b :: bs).take args.chunksize).length = min args.chunksize (b :: bs).length :=
        List.length_take _ _
      have htkne : ((b :: bs).take args.chunksize).length ≠ 0 := by omega
      rw [if_pos htkne]
      have hdl : ((b :: bs).drop args.chunksize).length = (b :: bs).length - args.chunksize :=
        List.length_drop _ _
      obtain ⟨o, ho, hacc, hrem, htot, hflen⟩ :=
        ih ((b :: bs).drop args.chunksize) (n + 1)
          (tot ++ (b :: bs).take args.chunksize)
          (acc ++ [(rpPre ++ cidName 6 n, (b :: bs).take args.chunksize)])
          ((if args.parchive then rem ++ [(parNameOf (cidName 6 n), parData n)] else rem) ++
            [(rpPre ++ cidName 6 n, (b :: bs).take args.chunksize)])
          _ _ _ (by omega) (by omega)
      refine ⟨o, ho, ?_, ?_, ?_, ?_⟩
      · rw [hacc, chunkSplit_cons args.chunksize hC (b :: bs) (by simp)]
        rw [show nameChunks n ((b :: bs).take args.chunksize ::
            chunkSplit args.chunksize ((b :: bs).drop args.chunksize)) =
          (rpName n, (b :: bs).take args.chunksize) ::
            nameChunks (n + 1) (chunkSplit args.chunksize ((b :: bs).drop args.chunksize))
          from rfl]
        rw [List.append_assoc]
        rfl
      · rw [hrem, chunkSplit_cons args.chunksize hC (b :: bs) (by simp)]
        rw [show uploadsOf args.parchive parData n ((b :: bs).take args.chunksize ::
            chunkSplit args.chunksize ((b :: bs).drop args.chunksize)) =
          (if args.parchive then [(parNameOf (cidName 6 n), parData n)] else []) ++
            [(rpName n, (b :: bs).take args.chunksize)] ++
            uploadsOf args.parchive parData (n + 1)
              (chunkSplit args.chunksize ((b :: bs).drop args.chunksize))
          from rfl]
        cases hpc : args.parchive with
        | true =>
          rw [if_pos rfl]
          simp [List.append_assoc, rpName]
        | false =>
          rw [if_neg (by simp)]
          simp [List.append_assoc, rpName]
      · rw [htot, List.append_assoc, List.take_append_drop]
      · rw [hflen, chunkSplit_cons args.chunksize hC (b :: bs) (by simp)]
        rw [List.length_cons]
        omega

theorem chunkSplit_flatten (C : Nat) (hC : 0 < C) (s : List Nat) :
    (chunkSplit C s).flatten = s :=
  chunkSplitAux_flatten C hC s.length s (le_refl _)

theorem chunkSplit_length (C : Nat) (hC : 0 < C) (s : List Nat) :
    (chunkSplit C s).length = (s.length + C - 1) / C :=
  chunkSplitAux_length C hC s.length s (le_refl _)

theorem nameChunks_length : ∀ (cs : List (List Nat)) (i : Nat),
    (nameChunks i cs).length = cs.length := by
  intro cs
  induction cs with
  | nil => intro i; rfl
  | cons c r ih =>
    intro i
    show (nameChunks (i + 1) r).length + 1 = r.length + 1
    rw [ih (i + 1)]

theorem nameChunks_getD_snd : ∀ (cs : List (List Nat)) (i j : Nat), j < cs.length →
    ((nameChunks i cs).getD j ([], [])).2 = cs.getD j [] := by
  intro cs
  induction cs with
  | nil => intro i j hj; simp at hj
  | cons c r ih =>
    intro i j hj
    cases j with
    | zero => rfl
    | succ j =>
      show ((nameChunks (i + 1) r).getD j ([], [])).2 = r.getD j []
      exact ih (i + 1) j (by simp at hj; omega)

theorem nameChunks_getLast? : ∀ (cs : List (List Nat)) (i : Nat), cs ≠ [] →
    ∃ nm l, (nameChunks i cs).getLast? = some (nm, l) ∧ cs.getLast? = some l := by
  intro cs
  induction cs with
  | nil => intro i h; exact absurd rfl h
  | cons c r ih =>
    intro i _
    cases r with
    | nil => exact ⟨rpName i, c, rfl, rfl⟩
    | cons c2 r2 =>
      obtain ⟨nm, l, h1, h2⟩ := ih (i + 1) (by simp)
      refine ⟨nm, l, ?_, ?_⟩
      · show ((rpName i, c) :: nameChunks (i + 1) (c2 :: r2)).getLast? = some (nm, l)
        rw [getLast?_cons_of_ne _ _ (by
          show (rpName (i + 1), c2) :: nameChunks (i + 2) r2 ≠ []
          simp), h1]
      · rw [getLast?_cons_of_ne _ _ (by simp), h2]

theorem nameChunks_mem_snd : ∀ (cs : List (List Nat)) (i : Nat)
    (p : List Nat × List Nat), p ∈ nameChunks i cs → p.2 ∈ cs := by
  intro cs
  induction cs with
  | nil => intro i p hp; simp [nameChunks] at hp
  | cons c r ih =>
    intro i p hp
    rcases List.mem_cons.mp hp with h | h
    · subst h
      exact List.mem_cons_self _ _
    · exact List.mem_cons_of_mem _ (ih (i + 1) p h)

theorem rpPre_isPrefixOf_rpName (i : Nat) : rpPre.isPrefixOf (rpName i) = true :=
  List.isPrefixOf_iff_prefix.mpr ⟨cidName 6 i, rfl⟩

theorem uploadsOf_filter_rp (parchive : Bool) (parData : Nat → List Nat)
    (tail : List (List Nat × List Nat))
    (htail : tail.filter (fun p => rpPre.isPrefixOf p.1) = []) :
    ∀ (cs : List (List Nat)) (i : Nat),
      (uploadsOf parchive parData i cs ++ tail).filter (fun p => rpPre.isPrefixOf p.1) =
        nameChunks i cs := by
  intro cs
  induction cs with
  | nil =>
    intro i
    show tail.filter (fun p => rpPre.isPrefixOf p.1) = nameChunks i []
    rw [htail]
    rfl
  | cons c r ih =>
    intro i
    have hpar : rpPre.isPrefixOf (parNameOf (cidName 6 i)) = false := rfl
    have hrp : rpPre.isPrefixOf (rpName i) = true := rpPre_isPrefixOf_rpName i
    show (((if parchive then [(parNameOf (cidName 6 i), parData i)] else []) ++
      [(rpName i, c)] ++ uploadsOf parchive parData (i + 1) r) ++ tail).filter
        (fun p => rpPre.isPrefixOf p.1) = (rpName i, c) :: nameChunks (i + 1) r
    cases parchive with
    | true =>
      rw [if_pos rfl]
      simp only [List.append_assoc, List.cons_append, List.nil_append]
      rw [List.filter_cons, List.filter_cons, hpar, hrp]
      rw [if_neg (by simp), if_pos rfl]
      rw [ih (i + 1)]
    | false =>
      rw [if_neg (by simp)]
      simp only [List.append_assoc, List.cons_append, List.nil_append]
      rw [List.filter_cons, hrp]
      rw [if_pos rfl]
      rw [ih (i + 1)]

theorem md5Name_filter_rp (buf : List Nat) :
    ([(md5Name, buf)] : List (List Nat × List Nat)).filter
      (fun p => rpPre.isPrefixOf p.1) = [] := by
  rw [List.filter_cons, if_neg (by rw [show rpPre.isPrefixOf md5Name = false from rfl]; simp)]
  rfl

/-- depositCore characterised: the sealed chunks are the chunkSplit
partition under monotone names, the manifest is one digest-name line per
chunk plus the TOTAL line, the remote holds the uploads plus the
manifest object, and the whole-stream digest preimage is exactly stdin. -/
theorem depositCore_spec (H : List Nat → List Nat) (parData : Nat → List Nat)
    (args : Args) (stdin : List Nat)
    (hC : 0 < args.chunksize) (hb : 0 < args.blocksize)
    (hlen : stdin.length + 1 ≤ 26 ^ 6) :
    ∃ st, depositCore H parData args stdin = .ok st ∧
      st.chunks = nameChunks 0 (chunkSplit args.chunksize stdin) ∧
      st.manifestBuf =
        ((((nameChunks 0 (chunkSplit args.chunksize stdin)).map fun p =>
          manifestLine (H p.2) p.1) ++ [manifestLine (H stdin) TOTAL])).flatten ∧
      st.remote = uploadsOf args.parchive parData 0 (chunkSplit args.chunksize stdin) ++
        [(md5Name, st.manifestBuf)] ∧
      st.tot = stdin := by
  obtain ⟨o, ho, hacc, hrem, htot, hflen⟩ :=
    depositLoop_spec parData args hC hb (stdin.length + 1) stdin 0 [] [] [] [] [] []
      (le_refl _) (by omega)
  rw [List.nil_append] at hacc hrem htot
  unfold depositCore
  rw [ho]
  dsimp only
  exact ⟨_, rfl, hacc, by rw [hacc, htot], by rw [hrem, hacc, htot], htot⟩

/-- C2: the send path seals exactly ceil(S / C) chunks (here written
(S + C - 1) / C); every chunk except possibly the last has size C; the
last chunk has size S mod C, or C when C divides S with S positive; an
empty input seals zero chunks; no zero-length chunk is ever sealed, and
the chunk objects on the remote are exactly the sealed chunks (the
zero-length trailing chunk file is discarded, not sealed or uploaded). -/
theorem deposit_chunk_counts (H : List Nat → List Nat) (parData : Nat → List Nat)
    (args : Args) (stdin : List Nat)
    (hC : 0 < args.chunksize) (hb : 0 < args.blocksize)
    (hlen : stdin.length + 1 ≤ 26 ^ 6) :
    ∃ st, depositCore H parData args stdin = .ok st ∧
      st.chunks.length = (stdin.length + args.chunksize - 1) / args.chunksize ∧
      (stdin.length = 0 → st.chunks = []) ∧
      (∀ i, i + 1 < st.chunks.length →
        ((st.chunks.getD i ([], [])).2).length = args.chunksize) ∧
      (stdin ≠ [] → ∃ p, st.chunks.getLast? = some p ∧
        p.2.length = (if stdin.length % args.chunksize = 0 then args.chunksize
          else stdin.length % args.chunksize)) ∧
      (∀ p ∈ st.chunks, p.2 ≠ []) ∧
      st.remote.filter (fun p => rpPre.isPrefixOf p.1) = st.chunks := by
  obtain ⟨st, hst, hchunks, hbuf, hremote, htot⟩ :=
    depositCore_spec H parData args stdin hC hb hlen
  refine ⟨st, hst, ?_, ?_, ?_, ?_, ?_, ?_⟩
  · rw [hchunks, nameChunks_length, chunkSplit_length args.chunksize hC]
  · intro h0
    have : stdin = [] := List.length_eq_zero.mp h0
    subst this
    rw [hchunks, chunkSplit, chunkSplitAux_nil]
    rfl
  · intro i hi
    rw [hchunks] at hi ⊢
    rw [nameChunks_length] at hi
    rw [nameChunks_getD_snd _ 0 i (by omega)]
    exact chunkSplitAux_get_eq_C args.chunksize hC stdin.length stdin (le_refl _) i hi
  · intro hne
    obtain ⟨l, hl, hlint⟩ := chunkSplitAux_last args.chunksize hC stdin.length stdin
      (le_refl _) hne
    have hcsne : chunkSplit args.chunksize stdin ≠ [] := by
      intro hz
      rw [chunkSplit] at hz
      rw [hz] at hl
      simp at hl
    obtain ⟨nm, l2, h1, h2⟩ := nameChunks_getLast? (chunkSplit args.chunksize stdin) 0 hcsne
    rw [show chunkSplit args.chunksize stdin =
      chunkSplitAux args.chunksize stdin.length stdin from rfl] at h2
    rw [hl] at h2
    injection h2 with h2
    subst h2
    exact ⟨(nm, l), by rw [hchunks]; exact h1, hlint⟩
  · intro p hp
    rw [hchunks] at hp
    have hmem := nameChunks_mem_snd _ 0 p hp
    exact (chunkSplitAux_sizes args.chunksize hC stdin.length stdin (le_refl _) p.2 hmem).1
  · rw [hremote, hchunks]
    exact uploadsOf_filter_rp args.parchive parData _ (md5Name_filter_rp _) _ 0

/-- Witness for the C2 theorem on a five-byte stream with chunk size two. -/
theorem deposit_chunk_counts_witness :
    (0 < 2 ∧ 0 < 1 ∧ [1, 2, 3, 4, 5].length + 1 ≤ 26 ^ 6) ∧
    (∃ st, depositCore (fun s => 104 :: s) (fun _ => []) ⟨2, 1, 2, false, false, false⟩
        [1, 2, 3, 4, 5] = .ok st ∧
      st.chunks.length = ([1, 2, 3, 4, 5].length + 2 - 1) / 2) := by
  have h := deposit_chunk_counts (fun s => 104 :: s) (fun _ => [])
    ⟨2, 1, 2, false, false, false⟩ [1, 2, 3, 4, 5] (by decide) (by decide)
    (by norm_num)
  obtain ⟨st, hst, hcount, _⟩ := h
  exact ⟨⟨by decide, by decide, by norm_num⟩, st, hst, hcount⟩

/-! ### Claim C8 (scratch-directory window bound) -/

theorem liveL_zero (W : Nat) : liveL W 0 = [] := by
  unfold liveL
  rw [show (0 : Nat) - max 1 (0 - W) = 0 from by omega]
  rfl

theorem liveL_length_le (W n : Nat) : (liveL W n).length ≤ W := by
  unfold liveL
  rw [List.length_range']
  omega

theorem liveL_mem_lt (W n m : Nat) (h : m ∈ liveL W n) : 1 ≤ m ∧ m < n := by
  unfold liveL at h
  rw [List.mem_range'_1] at h
  omega

theorem liveL_nodup (W n : Nat) : (liveL W n).Nodup :=
  List.nodup_range' _ _

theorem range'_concat_at (s k n : Nat) (h : s + k = n) :
    List.range' s k ++ [n] = List.range' s (k + 1) := by
  rw [List.range'_concat s k]
  rw [show s + 1 * k = n from by omega]

theorem liveL_append (W n : Nat) (hn : 1 ≤ n) :
    liveL W n ++ [n] = List.range' (max 1 (n - W)) (n + 1 - max 1 (n - W)) := by
  unfold liveL
  rw [range'_concat_at _ _ n (by omega)]
  rw [show n + 1 - max 1 (n - W) = (n - max 1 (n - W)) + 1 from by omega]

theorem liveE_append (W n : Nat) (hW : 1 ≤ W) (hn : 1 ≤ n) :
    List.range' (max 1 (n + 1 - W)) (n - max 1 (n + 1 - W)) ++ [n] = liveL W (n + 1) := by
  rw [range'_concat_at _ _ n (by omega)]
  unfold liveL
  rw [show n + 1 - max 1 (n + 1 - W) = (n - max 1 (n + 1 - W)) + 1 from by omega]

theorem liveL_erase_top (W n : Nat) (hW : 1 ≤ W) (hn : 1 ≤ n) :
    (liveL W (n + 1)).erase n = List.range' (max 1 (n + 1 - W)) (n - max 1 (n + 1 - W)) := by
  rw [← liveE_append W n hW hn]
  rw [List.erase_append_right _ (by
    intro hmem
    rw [List.mem_range'_1] at hmem
    omega)]
  rw [List.erase_cons_head]
  rw [List.append_nil]

theorem step_window (W n : Nat) (hW : 1 ≤ W) (hn : 1 ≤ n) :
    (if W ≤ n then complete (liveL W n ++ [n]) (liveL W n) (n - W)
     else (liveL W n ++ [n], liveL W n)) =
      (liveL W (n + 1), List.range' (max 1 (n + 1 - W)) (n - max 1 (n + 1 - W))) := by
  rcases Nat.lt_or_ge W n with hlt | hge
  · rw [if_pos (by omega)]
    have hsmax : max 1 (n - W) = n - W := by omega
    have hmem : (n - W) ∈ liveL W n := by
      unfold liveL
      rw [List.mem_range'_1, hsmax]
      omega
    unfold complete
    rw [if_pos (List.elem_iff.mpr hmem)]
    have hlive1 : liveL W n ++ [n] = List.range' (n - W) (W + 1) := by
      rw [liveL_append W n hn, hsmax]
      rw [show n + 1 - (n - W) = W + 1 from by omega]
    have hliveL : liveL W n = List.range' (n - W) W := by
      unfold liveL
      rw [hsmax, show n - (n - W) = W from by omega]
    apply Prod.ext <;> dsimp only
    · rw [hlive1, List.range'_succ, List.erase_cons_head]
      unfold liveL
      congr 1 <;> omega
    · rw [hliveL, show W = (W - 1) + 1 from by omega, List.range'_succ,
        List.erase_cons_head]
      congr 1 <;> omega
  · have heq : (if W ≤ n then complete (liveL W n ++ [n]) (liveL W n) (n - W)
        else (liveL W n ++ [n], liveL W n)) = (liveL W n ++ [n], liveL W n) := by
      by_cases hWn : W ≤ n
      · rw [if_pos hWn]
        have hnW : n - W = 0 := by omega
        unfold complete
        rw [if_neg (by
          rw [hnW]
          intro hc
          have := liveL_mem_lt W n 0 (List.elem_iff.mp hc)
          omega)]
      · rw [if_neg hWn]
    rw [heq]
    apply Prod.ext <;> dsimp only
    · rw [liveL_append W n hn]
      unfold liveL
      congr 1 <;> omega
    · unfold liveL
      congr 1 <;> omega

theorem complete_zero : complete [0] [0] 0 = ([], []) := rfl

/-- The send loop keeps at most W + 1 chunk files in scratch: the trace
invariant for iterations n with canonical live/inflight state. -/
theorem depositLoop_trace (parData : Nat → List Nat) (args : Args)
    (hW : 1 ≤ args.jobs) (hC : 0 < args.chunksize) (hb : 0 < args.blocksize) :
    ∀ fuel stdin n tot acc rem trace,
      stdin.length + 1 ≤ fuel → n + stdin.length + 1 ≤ 26 ^ 6 → 1 ≤ n →
      (∀ l ∈ trace, l.length ≤ args.jobs + 1) →
      ∃ o, depositLoop parData args fuel stdin n tot acc rem
          (liveL args.jobs n) (liveL args.jobs n) trace = .ok o ∧
        (∀ l ∈ o.trace, l.length ≤ args.jobs + 1) ∧
        o.live = o.inflight ∧ (∀ m ∈ o.live, m < o.flen) ∧ o.live.Nodup ∧
        o.live.length ≤ args.jobs ∧ 1 ≤ o.flen := by
  intro fuel
  induction fuel with
  | zero =>
    intro stdin n tot acc rem trace hfuel
    omega
  | succ fuel ih =>
    intro stdin n tot acc rem trace hfuel hbound hn htrace
    have hn6 : n < 26 ^ 6 := by omega
    have hmk : mkname n = .ok (cidName 6 n) := by
      rw [mkname_ok hn6, List.nil_append]
    have hlive1len : (liveL args.jobs n ++ [n]).length ≤ args.jobs + 1 := by
      rw [List.length_append]
      have := liveL_length_le args.jobs n
      simp
      omega
    have hliveE_len :
        (List.range' (max 1 (n + 1 - args.jobs)) (n - max 1 (n + 1 - args.jobs))).length ≤
          args.jobs + 1 := by
      rw [List.length_range']
      omega
    have hlive2len : (liveL args.jobs (n + 1)).length ≤ args.jobs + 1 := by
      have := liveL_length_le args.jobs (n + 1)
      omega
    unfold depositLoop
    rw [hmk]
    dsimp only
    rw [readin_spec hb args.chunksize stdin]
    dsimp only
    rw [step_window args.jobs n hW hn]
    dsimp only
    cases stdin with
    | nil =>
      simp only [List.take_nil, List.drop_nil]
      rw [if_neg (by simp)]
      rw [liveL_erase_top args.jobs n hW hn]
      refine ⟨_, rfl, ?_, rfl, ?_, ?_, ?_, ?_⟩
      · intro l hl
        show l.length ≤ args.jobs + 1
        simp only [List.append_assoc, List.mem_append, List.mem_singleton] at hl
        rcases hl with h | h | h | h
        · exact htrace l h
        · subst h; exact hlive1len
        · subst h; exact hlive2len
        · subst h; exact hliveE_len
      · intro m hm
        show m < n + 1
        rw [List.mem_range'_1] at hm
        omega
      · exact List.nodup_range' _ _
      · show (List.range' (max 1 (n + 1 - args.jobs)) (n - max 1 (n + 1 - args.jobs))).length ≤
          args.jobs
        rw [List.length_range']
        omega
      · show 1 ≤ n + 1
        omega
    | cons b bs =>
      have hsl : (b :: bs).length = bs.length + 1 := List.length_cons b bs
      have htkne : ((b :: bs).take args.chunksize).length ≠ 0 := by
        rw [List.length_take]
        omega
      rw [if_pos htkne]
      rw [if_neg (by omega : ¬ n = 0)]
      dsimp only
      rw [liveE_append args.jobs n hW hn]
      have hdl : ((b :: bs).drop args.chunksize).length = (b :: bs).length - args.chunksize :=
        List.length_drop _ _
      obtain ⟨o, ho, htr, hlio, hlt, hnd, hll, hfl⟩ := ih ((b :: bs).drop args.chunksize) (n + 1)
        (tot ++ (b :: bs).take args.chunksize)
        (acc ++ [(rpPre ++ cidName 6 n, (b :: bs).take args.chunksize)])
        ((if args.parchive then rem ++ [(parNameOf (cidName 6 n), parData n)] else rem) ++
          [(rpPre ++ cidName 6 n, (b :: bs).take args.chunksize)])
        (trace ++ [liveL args.jobs n ++ [n]] ++ [liveL args.jobs (n + 1)] ++
          [liveL args.jobs (n + 1)])
        (by omega) (by omega) (by omega)
        (by
          intro l hl
          simp only [List.append_assoc, List.mem_append, List.mem_singleton] at hl
          rcases hl with h | h | h | h
          · exact htrace l h
          · subst h; exact hlive1len
          · subst h; exact hlive2len
          · subst h; exact hlive2len)
      exact ⟨o, ho, htr, hlio, hlt, hnd, hll, hfl⟩

theorem liveL_one (W : Nat) (hW : 1 ≤ W) : liveL W 1 = [] := by
  unfold liveL
  rw [show max 1 (1 - W) = 1 from by omega]
  rfl

/-- The trace invariant from the very first iteration: the send loop
started with an empty scratch directory keeps at most W + 1 chunk files
live at every snapshot. -/
theorem depositLoop_trace0 (parData : Nat → List Nat) (args : Args)
    (hW : 1 ≤ args.jobs) (hC : 0 < args.chunksize) (hb : 0 < args.blocksize)
    (stdin : List Nat) (hlen : stdin.length + 1 ≤ 26 ^ 6) :
    ∃ o, depositLoop parData args (stdin.length + 1) stdin 0 [] [] [] [] [] [] = .ok o ∧
      (∀ l ∈ o.trace, l.length ≤ args.jobs + 1) ∧
      o.live = o.inflight ∧ (∀ m ∈ o.live, m < o.flen) ∧ o.live.Nodup ∧
      o.live.length ≤ args.jobs ∧ 1 ≤ o.flen := by
  have hmk : mkname 0 = .ok (cidName 6 0) := by
    rw [mkname_ok (by norm_num), List.nil_append]
  unfold depositLoop
  rw [hmk]
  dsimp only
  rw [readin_spec hb args.chunksize stdin]
  dsimp only
  rw [if_neg (by omega : ¬ args.jobs ≤ 0)]
  simp only [List.nil_append]
  cases stdin with
  | nil =>
    simp only [List.take_nil, List.drop_nil]
    rw [if_neg (by simp)]
    rw [List.erase_cons_head]
    refine ⟨_, rfl, ?_, rfl, ?_, List.nodup_nil, by simp, by simp⟩
    · intro l hl
      show l.length ≤ args.jobs + 1
      rcases List.mem_append.mp hl with h2 | h2
      · rcases List.mem_append.mp h2 with h3 | h3
        · rw [List.mem_singleton] at h3
          subst h3
          simp
        · rw [List.mem_singleton] at h3
          subst h3
          simp
      · rw [List.mem_singleton] at h2
        subst h2
        simp
    · intro m hm
      simp at hm
  | cons b bs =>
    have hsl : (b :: bs).length = bs.length + 1 := List.length_cons b bs
    have htkne : ((b :: bs).take args.chunksize).length ≠ 0 := by
      rw [List.length_take]
      omega
    rw [if_pos htkne]
    simp only [if_true]
    rw [show complete [0] [0] 0 = ([], []) from rfl]
    dsimp only
    obtain ⟨o, ho, htr, hlio, hlt, hnd, hll, hfl⟩ :=
      depositLoop_trace parData args hW hC hb ((b :: bs).length)
        ((b :: bs).drop args.chunksize) 1
        ([] ++ (b :: bs).take args.chunksize)
        ([] ++ [(rpPre ++ cidName 6 0, (b :: bs).take args.chunksize)])
        ((if args.parchive then [] ++ [(parNameOf (cidName 6 0), parData 0)] else []) ++
          [(rpPre ++ cidName 6 0, (b :: bs).take args.chunksize)])
        ([[0], [0], []])
        (by rw [List.length_drop]; omega) (by rw [List.length_drop]; omega) (le_refl _)
        (by
          intro l hl
          simp only [List.mem_cons] at hl
          rcases hl with h | h | h | h
          · subst h; simp
          · subst h; simp
          · subst h; simp
          · simp at h)
    rw [liveL_one args.jobs hW] at ho
    exact ⟨o, ho, htr, hlio, hlt, hnd, hll, hfl⟩

/-- Unfolding equation for drainList at a cons cell. -/
theorem drainList_cons (x : Nat) (r live inflight : List Nat) (trace : List (List Nat)) :
    drainList (x :: r) live inflight trace =
      drainList r (complete live inflight x).1 (complete live inflight x).2
        (trace ++ [(complete live inflight x).1]) := rfl

/-- The drain after input exhaustion deletes every remaining local chunk
file, never growing the scratch set. -/
theorem drainList_spec (B : Nat) :
    ∀ (xs live : List Nat) (trace : List (List Nat)), live.Nodup →
      (∀ m ∈ live, m ∈ xs) → live.length ≤ B →
      (∀ l ∈ trace, l.length ≤ B) →
      (drainList xs live live trace).1 = [] ∧
      (∀ l ∈ (drainList xs live live trace).2.2, l.length ≤ B) := by
  intro xs
  induction xs with
  | nil =>
    intro live trace hnd hsub hlen htr
    have hnil : live = [] := by
      cases live with
      | nil => rfl
      | cons a r => exact absurd (hsub a (List.mem_cons_self _ _)) (by simp)
    subst hnil
    exact ⟨rfl, htr⟩
  | cons x r ih =>
    intro live trace hnd hsub hlen htr
    rw [drainList_cons]
    by_cases hx : x ∈ live
    · have hcomp : complete live live x = (live.erase x, live.erase x) := by
        unfold complete
        rw [if_pos (List.elem_iff.mpr hx)]
      rw [hcomp]
      dsimp only
      apply ih (live.erase x) _ (hnd.erase x)
      · intro m hm
        have hm2 := (List.Nodup.mem_erase_iff hnd).mp hm
        rcases List.mem_cons.mp (hsub m hm2.2) with h | h
        · exact absurd h hm2.1
        · exact h
      · have := List.length_erase_of_mem hx
        omega
      · intro l hl
        rcases List.mem_append.mp hl with h | h
        · exact htr l h
        · rw [List.mem_singleton] at h
          subst h
          have := List.length_erase_of_mem hx
          omega
    · have hcomp : complete live live x = (live, live) := by
        unfold complete
        rw [if_neg (by intro hc; exact hx (List.elem_iff.mp hc))]
      rw [hcomp]
      dsimp only
      apply ih live _ hnd
      · intro m hm
        rcases List.mem_cons.mp (hsub m hm) with h | h
        · subst h; exact absurd hm hx
        · exact h
      · exact hlen
      · intro l hl
        rcases List.mem_append.mp hl with h | h
        · exact htr l h
        · rw [List.mem_singleton] at h
          subst h
          exact hlen

/-- After a nonempty drain, the last trace snapshot is the final live set. -/
theorem drainList_getLast : ∀ (xs : List Nat), xs ≠ [] →
    ∀ (live inflight : List Nat) (trace : List (List Nat)),
      (drainList xs live inflight trace).2.2.getLast? =
        some (drainList xs live inflight trace).1 := by
  intro xs
  induction xs with
  | nil => intro h; exact absurd rfl h
  | cons x r ih =>
    intro _ live inflight trace
    rw [drainList_cons]
    cases r with
    | nil =>
      show (trace ++ [(complete live inflight x).1]).getLast? =
        some (complete live inflight x).1
      exact List.getLast?_concat _
    | cons y r2 =>
      exact ih (by simp) _ _ _

/-- C8: during a send with window width W (at least 1), every snapshot of
the scratch directory holds at most W + 1 chunk files: a chunk file is
deleted once the upload W positions before it completes, and after input
exhaustion the drain deletes every remaining in-flight chunk file before
the manifest is written (the final snapshot is empty). -/
theorem scratch_window_bound (H : List Nat → List Nat) (parData : Nat → List Nat)
    (args : Args) (stdin : List Nat) (hW : 1 ≤ args.jobs)
    (hC : 0 < args.chunksize) (hb : 0 < args.blocksize)
    (hlen : stdin.length + 1 ≤ 26 ^ 6) :
    ∃ st, depositCore H parData args stdin = .ok st ∧
      (∀ l ∈ st.trace, l.length ≤ args.jobs + 1) ∧
      st.trace.getLast? = some [] := by
  obtain ⟨o, ho, htr, hlio, hlt, hnd, hll, hfl⟩ :=
    depositLoop_trace0 parData args hW hC hb stdin hlen
  unfold depositCore
  rw [ho]
  dsimp only
  rw [← hlio]
  have hsub : ∀ m ∈ o.live, m ∈ List.range o.flen := fun m hm =>
    List.mem_range.mpr (hlt m hm)
  obtain ⟨hd1, hd3⟩ := drainList_spec (args.jobs + 1) (List.range o.flen) o.live o.trace
    hnd hsub (by omega) htr
  have hrne : List.range o.flen ≠ [] := by
    intro hz
    have := List.length_range o.flen
    rw [hz] at this
    simp at this
    omega
  have hlast := drainList_getLast (List.range o.flen) hrne o.live o.live o.trace
  refine ⟨_, rfl, hd3, ?_⟩
  rw [hlast, hd1]

/-- Witness for the C8 theorem on a five-byte stream, chunk size two,
window width one. -/
theorem scratch_window_bound_witness :
    (1 ≤ 1 ∧ 0 < 2 ∧ 0 < 1 ∧ [1, 2, 3, 4, 5].length + 1 ≤ 26 ^ 6) ∧
    (∃ st, depositCore (fun s => 104 :: s) (fun _ => []) ⟨2, 1, 1, false, false, false⟩
        [1, 2, 3, 4, 5] = .ok st ∧
      (∀ l ∈ st.trace, l.length ≤ 1 + 1) ∧ st.trace.getLast? = some []) := by
  have h := scratch_window_bound (fun s => 104 :: s) (fun _ => [])
    ⟨2, 1, 1, false, false, false⟩ [1, 2, 3, 4, 5] (by decide) (by decide) (by decide)
    (by norm_num)
  exact ⟨⟨by decide, by decide, by decide, by norm_num⟩, h⟩

/-! ### Claim C1 (round trip): manifest serialisation and parsing -/

theorem pyLinesAux_cons (cur : List Nat) (c : Nat) (rest : List Nat) :
    pyLinesAux cur (c :: rest) =
      if c = 10 then cur :: pyLinesAux [] rest else pyLinesAux (cur ++ [c]) rest := rfl

theorem pySplitAux_cons (cur : List Nat) (c : Nat) (rest : List Nat) :
    pySplitAux cur (c :: rest) =
      if isSpace c then
        if cur.isEmpty then pySplitAux [] rest else cur :: pySplitAux [] rest
      else pySplitAux (cur ++ [c]) rest := rfl

theorem pySplitAux_nil (cur : List Nat) :
    pySplitAux cur [] = if cur.isEmpty then [] else [cur] := rfl

theorem pyLinesAux_append (x : List Nat) (hx : ∀ c ∈ x, c ≠ 10) :
    ∀ cur rest, pyLinesAux cur (x ++ 10 :: rest) = (cur ++ x) :: pyLinesAux [] rest := by
  induction x with
  | nil =>
    intro cur rest
    rw [List.nil_append, List.append_nil, pyLinesAux_cons, if_pos rfl]
  | cons c t ih =>
    intro cur rest
    rw [List.cons_append, pyLinesAux_cons, if_neg (hx c (List.mem_cons_self _ _))]
    rw [ih (fun d hd => hx d (List.mem_cons_of_mem _ hd)) (cur ++ [c]) rest]
    rw [List.append_assoc]
    rfl

theorem pyLines_manifest :
    ∀ (ents : List (List Nat × List Nat)),
      (∀ q ∈ ents, (∀ c ∈ q.1, c ≠ 10) ∧ (∀ c ∈ q.2, c ≠ 10)) →
      pyLines ((ents.map fun q => manifestLine q.1 q.2).flatten) =
        ents.map fun q => q.1 ++ [32, 32] ++ q.2 := by
  intro ents
  induction ents with
  | nil => intro _; rfl
  | cons q r ih =>
    intro hws
    rw [List.map_cons, List.flatten_cons]
    have hq := hws q (List.mem_cons_self _ _)
    have hline : manifestLine q.1 q.2 ++ (r.map fun q => manifestLine q.1 q.2).flatten =
        (q.1 ++ [32, 32] ++ q.2) ++ 10 :: (r.map fun q => manifestLine q.1 q.2).flatten := by
      unfold manifestLine
      simp [List.append_assoc]
    have ihr := ih (fun q' hq' => hws q' (List.mem_cons_of_mem _ hq'))
    unfold pyLines at ihr ⊢
    rw [hline]
    rw [pyLinesAux_append (q.1 ++ [32, 32] ++ q.2) (by
      intro c hc
      rcases List.mem_append.mp hc with h2 | h2
      · rcases List.mem_append.mp h2 with h3 | h3
        · exact hq.1 c h3
        · rcases List.mem_cons.mp h3 with h4 | h4
          · omega
          · rw [List.mem_singleton] at h4; omega
      · exact hq.2 c h2) [] _]
    rw [List.nil_append, ihr]
    rfl

theorem pySplitAux_nonspace (x : List Nat) (hx : ∀ c ∈ x, isSpace c = false) :
    ∀ cur rest, pySplitAux cur (x ++ rest) = pySplitAux (cur ++ x) rest := by
  induction x with
  | nil =>
    intro cur rest
    rw [List.nil_append, List.append_nil]
  | cons c t ih =>
    intro cur rest
    rw [List.cons_append, pySplitAux_cons,
      if_neg (by rw [hx c (List.mem_cons_self _ _)]; exact Bool.false_ne_true)]
    rw [ih (fun d hd => hx d (List.mem_cons_of_mem _ hd)) (cur ++ [c]) rest]
    rw [List.append_assoc]
    rfl

theorem pySplitAux_all_nonspace (x : List Nat) (hx : x ≠ [])
    (hw : ∀ c ∈ x, isSpace c = false) : pySplitAux [] x = [x] := by
  have h := pySplitAux_nonspace x hw [] []
  rw [List.append_nil, List.nil_append] at h
  rw [h, pySplitAux_nil, if_neg (by simpa using hx)]

theorem pySplit_two_tokens (d nm : List Nat) (hd : d ≠ []) (hnm : nm ≠ [])
    (hdw : ∀ c ∈ d, isSpace c = false) (hnw : ∀ c ∈ nm, isSpace c = false) :
    pySplit (d ++ [32, 32] ++ nm) = [d, nm] := by
  unfold pySplit
  rw [List.append_assoc]
  rw [pySplitAux_nonspace d hdw [] ([32, 32] ++ nm), List.nil_append]
  show pySplitAux d (32 :: 32 :: nm) = [d, nm]
  rw [pySplitAux_cons, if_pos (show isSpace 32 = true from rfl),
    if_neg (by simpa using hd)]
  rw [show pySplitAux [] (32 :: nm) =
      if isSpace 32 then
        if List.isEmpty ([] : List Nat) then pySplitAux [] nm
        else [] :: pySplitAux [] nm
      else pySplitAux ([] ++ [32]) nm from pySplitAux_cons [] 32 nm]
  rw [if_pos (show isSpace 32 = true from rfl),
    if_pos (show List.isEmpty ([] : List Nat) = true from rfl)]
  rw [pySplitAux_all_nonspace nm hnm hnw]

theorem TOTAL_ne_rpName (j : Nat) : TOTAL ≠ rpName j := by
  intro h
  have h2 : (84 : Nat) :: [79, 84, 65, 76] = 114 :: (112 :: 45 :: cidName 6 j) := h
  injection h2 with h3 _
  omega

theorem parNameOf_ne_rpName (x : List Nat) (j : Nat) : parNameOf x ≠ rpName j := by
  intro h
  have h2 : (112 : Nat) :: (([97, 114, 45] ++ x) ++ [46, 112, 97, 114, 50]) =
      114 :: (112 :: 45 :: cidName 6 j) := h
  injection h2 with h3 _
  omega

theorem parNameOf_ne_md5Name (x : List Nat) : parNameOf x ≠ md5Name := by
  intro h
  have h2 : (112 : Nat) :: (([97, 114, 45] ++ x) ++ [46, 112, 97, 114, 50]) =
      114 :: [112, 105, 112, 101, 46, 109, 100, 53] := h
  injection h2 with h3 _
  omega

theorem rpName_ne_md5Name (j : Nat) : rpName j ≠ md5Name := by
  intro h
  have h2 : (114 : Nat) :: (112 :: 45 :: cidName 6 j) =
      114 :: (112 :: 105 :: [112, 101, 46, 109, 100, 53]) := h
  injection h2 with _ h3
  injection h3 with _ h4
  injection h4 with h5 _
  omega

theorem TOTAL_ne_md5Name : TOTAL ≠ md5Name := by
  intro h
  have h2 : (84 : Nat) :: [79, 84, 65, 76] = 114 :: [112, 105, 112, 101, 46, 109, 100, 53] := h
  injection h2 with h3 _
  omega

theorem rpName_ws_free (j : Nat) : ∀ c ∈ rpName j, isSpace c = false := by
  intro c hc
  unfold rpName rpPre at hc
  rcases List.mem_append.mp hc with h | h
  · rcases List.mem_cons.mp h with h2 | h2
    · subst h2; rfl
    · rcases List.mem_cons.mp h2 with h3 | h3
      · subst h3; rfl
      · rw [List.mem_singleton] at h3; subst h3; rfl
  · have := cidName_alpha 6 j c h
    simp [isSpace]
    omega

theorem rpName_ne_nil (j : Nat) : rpName j ≠ [] := by
  intro h
  exact List.noConfusion (show (114 : Nat) :: (112 :: 45 :: cidName 6 j) = [] from h)

theorem TOTAL_ws_free : ∀ c ∈ TOTAL, isSpace c = false := by
  decide

theorem nameChunks_fst_mem : ∀ (cs : List (List Nat)) (i : Nat) (x : List Nat),
    x ∈ (nameChunks i cs).map Prod.fst →
    ∃ j, i ≤ j ∧ j < i + cs.length ∧ x = rpName j := by
  intro cs
  induction cs with
  | nil => intro i x hx; simp [nameChunks] at hx
  | cons c r ih =>
    intro i x hx
    rw [show nameChunks i (c :: r) = (rpName i, c) :: nameChunks (i + 1) r from rfl,
      List.map_cons] at hx
    rcases List.mem_cons.mp hx with h | h
    · exact ⟨i, le_refl _, by simp, h⟩
    · obtain ⟨j, h1, h2, h3⟩ := ih (i + 1) x h
      exact ⟨j, by omega, by simp; omega, h3⟩

theorem pyStrLt_cons (a : Nat) (as : List Nat) (b : Nat) (bs : List Nat) :
    pyStrLt (a :: as) (b :: bs) =
      if a < b then true else if b < a then false else pyStrLt as bs := rfl

theorem pyStrLt_TOTAL_rpName (j : Nat) : pyStrLt TOTAL (rpName j) = true := by
  show pyStrLt (84 :: [79, 84, 65, 76]) (114 :: (112 :: 45 :: cidName 6 j)) = true
  rw [pyStrLt_cons, if_pos (by norm_num)]

theorem dictGet_cons {α : Type} (k1 : List Nat) (v : α) (r : List (List Nat × α))
    (k : List Nat) :
    dictGet ((k1, v) :: r) k = if k1 = k then some v else dictGet r k := rfl

theorem dictGet_none_of_forall {α : Type} :
    ∀ (md : List (List Nat × α)) (k : List Nat),
      (∀ p ∈ md, p.1 ≠ k) → dictGet md k = none := by
  intro md
  induction md with
  | nil => intro k _; rfl
  | cons p r ih =>
    intro k h
    obtain ⟨k1, v⟩ := p
    rw [dictGet_cons, if_neg (h (k1, v) (List.mem_cons_self _ _))]
    exact ih k fun p hp => h p (List.mem_cons_of_mem _ hp)

theorem dictGet_append_none {α : Type} :
    ∀ (m1 m2 : List (List Nat × α)) (k : List Nat),
      dictGet m1 k = none → dictGet (m1 ++ m2) k = dictGet m2 k := by
  intro m1
  induction m1 with
  | nil => intro m2 k _; rw [List.nil_append]
  | cons p r ih =>
    intro m2 k h
    obtain ⟨k1, v⟩ := p
    rw [dictGet_cons] at h
    rw [List.cons_append, dictGet_cons]
    by_cases h1 : k1 = k
    · rw [if_pos h1] at h; exact absurd h (Option.some_ne_none v)
    · rw [if_neg h1] at h
      rw [if_neg h1]
      exact ih m2 k h

theorem dictGet_append_some {α : Type} :
    ∀ (m1 m2 : List (List Nat × α)) (k : List Nat) (v : α),
      dictGet m1 k = some v → dictGet (m1 ++ m2) k = some v := by
  intro m1
  induction m1 with
  | nil =>
    intro m2 k v h
    exact absurd ((show dictGet ([] : List (List Nat × α)) k = none from rfl) ▸ h).symm
      (Option.some_ne_none v)
  | cons p r ih =>
    intro m2 k v h
    obtain ⟨k1, v1⟩ := p
    rw [dictGet_cons] at h
    rw [List.cons_append, dictGet_cons]
    by_cases h1 : k1 = k
    · rw [if_pos h1] at h ⊢; exact h
    · rw [if_neg h1] at h ⊢; exact ih m2 k v h

theorem uploadsOf_lookup (parchive : Bool) (parData : Nat → List Nat)
    (tail : List (List Nat × List Nat)) :
    ∀ (cs : List (List Nat)) (i : Nat), i + cs.length ≤ 26 ^ 6 →
      ∀ p ∈ nameChunks i cs,
        dictGet (uploadsOf parchive parData i cs ++ tail) p.1 = some p.2 := by
  intro cs
  induction cs with
  | nil => intro i _ p hp; exact absurd hp (by simp [nameChunks])
  | cons c r ih =>
    intro i hle p hp
    have hup : uploadsOf parchive parData i (c :: r) =
        ((if parchive then [(parNameOf (cidName 6 i), parData i)] else []) ++
          [(rpName i, c)]) ++ uploadsOf parchive parData (i + 1) r := rfl
    obtain ⟨j, hj1, hj2, hj3⟩ := nameChunks_fst_mem (c :: r) i p.1
      (List.mem_map_of_mem Prod.fst hp)
    rw [hup, List.append_assoc, List.append_assoc]
    have hpar : dictGet (if parchive then
        [(parNameOf (cidName 6 i), parData i)] else []) p.1 = none := by
      cases parchive with
      | false => rfl
      | true =>
        rw [if_pos rfl, dictGet_cons,
          if_neg (hj3 ▸ parNameOf_ne_rpName (cidName 6 i) j)]
        rfl
    rw [dictGet_append_none _ _ _ hpar]
    rcases List.mem_cons.mp (show p ∈ (rpName i, c) :: nameChunks (i + 1) r from hp)
      with hh | hh
    · subst hh
      rw [List.cons_append, dictGet_cons, if_pos rfl]
    · obtain ⟨j2, hk1, hk2, hk3⟩ := nameChunks_fst_mem r (i + 1) p.1
        (List.mem_map_of_mem Prod.fst hh)
      rw [List.cons_append, dictGet_cons, if_neg (by
        rw [hk3]
        intro heq
        have := rpName_inj (by simp at hle; omega) (by simp at hle; omega) heq
        omega)]
      rw [List.nil_append]
      exact ih (i + 1) (by simp at hle ⊢; omega) p hh

theorem nameChunks_md_lookup (H : List Nat → List Nat) :
    ∀ (cs : List (List Nat)) (i : Nat) (tail : List (List Nat × List Nat)),
      i + cs.length ≤ 26 ^ 6 →
      ∀ p ∈ nameChunks i cs,
        dictGet ((nameChunks i cs).map (fun q => (q.1, H q.2)) ++ tail) p.1 =
          some (H p.2) := by
  intro cs
  induction cs with
  | nil => intro i _ _ p hp; exact absurd hp (by simp [nameChunks])
  | cons c r ih =>
    intro i tail hle p hp
    rw [show nameChunks i (c :: r) = (rpName i, c) :: nameChunks (i + 1) r from rfl,
      List.map_cons, List.cons_append, dictGet_cons]
    rcases List.mem_cons.mp (show p ∈ (rpName i, c) :: nameChunks (i + 1) r from hp)
      with hh | hh
    · subst hh
      rw [if_pos rfl]
    · obtain ⟨j2, hk1, hk2, hk3⟩ := nameChunks_fst_mem r (i + 1) p.1
        (List.mem_map_of_mem Prod.fst hh)
      rw [if_neg (by
        rw [hk3]
        intro heq
        have := rpName_inj (by simp at hle; omega) (by simp at hle; omega) heq
        omega)]
      exact ih (i + 1) tail (by simp at hle ⊢; omega) p hh

theorem uploadsOf_md5_none (parchive : Bool) (parData : Nat → List Nat) :
    ∀ (cs : List (List Nat)) (i : Nat),
      dictGet (uploadsOf parchive parData i cs) md5Name = none := by
  intro cs
  induction cs with
  | nil => intro i; rfl
  | cons c r ih =>
    intro i
    have hup : uploadsOf parchive parData i (c :: r) =
        ((if parchive then [(parNameOf (cidName 6 i), parData i)] else []) ++
          [(rpName i, c)]) ++ uploadsOf parchive parData (i + 1) r := rfl
    have hpar : dictGet (if parchive then
        [(parNameOf (cidName 6 i), parData i)] else []) md5Name = none := by
      cases parchive with
      | false => rfl
      | true =>
        rw [if_pos rfl, dictGet_cons, if_neg (parNameOf_ne_md5Name (cidName 6 i))]
        rfl
    rw [hup, List.append_assoc, dictGet_append_none _ _ _ hpar,
      List.cons_append, dictGet_cons, if_neg (rpName_ne_md5Name i), List.nil_append]
    exact ih (i + 1)

theorem chunkMd_TOTAL_none (H : List Nat → List Nat) (cs : List (List Nat)) (i : Nat) :
    dictGet ((nameChunks i cs).map fun q => (q.1, H q.2)) TOTAL = none := by
  apply dictGet_none_of_forall
  intro p hp
  obtain ⟨q, hq, rfl⟩ := List.mem_map.mp hp
  intro heq
  obtain ⟨j, _, _, hj⟩ := nameChunks_fst_mem cs i q.1 (List.mem_map_of_mem Prod.fst hq)
  exact TOTAL_ne_rpName j (heq ▸ hj)

theorem nameChunks_fst_pairwise : ∀ (cs : List (List Nat)) (i : Nat),
    i + cs.length ≤ 26 ^ 6 →
    List.Pairwise (fun a b => pyStrLt a b = true) ((nameChunks i cs).map Prod.fst) := by
  intro cs
  induction cs with
  | nil => intro i _; exact List.Pairwise.nil
  | cons c r ih =>
    intro i hle
    rw [show nameChunks i (c :: r) = (rpName i, c) :: nameChunks (i + 1) r from rfl,
      List.map_cons]
    refine List.pairwise_cons.mpr ⟨?_, ih (i + 1) (by simp at hle ⊢; omega)⟩
    intro b hb
    obtain ⟨j, hj1, hj2, hj3⟩ := nameChunks_fst_mem r (i + 1) b hb
    rw [hj3]
    exact rpName_mono (by omega) (by simp at hle; omega)

theorem nameChunks_fst_nodup (cs : List (List Nat)) (i : Nat)
    (h : i + cs.length ≤ 26 ^ 6) : ((nameChunks i cs).map Prod.fst).Nodup := by
  refine (nameChunks_fst_pairwise cs i h).imp ?_
  intro a b hab heq
  rw [heq, pyStrLt_irrefl] at hab
  exact Bool.noConfusion hab

theorem TOTAL_not_mem_names (cs : List (List Nat)) (i : Nat) :
    TOTAL ∉ (nameChunks i cs).map Prod.fst := by
  intro h
  obtain ⟨j, _, _, h3⟩ := nameChunks_fst_mem cs i TOTAL h
  exact TOTAL_ne_rpName j h3

theorem isSpace_ne_ten {c : Nat} (h : isSpace c = false) : c ≠ 10 := by
  intro hc
  subst hc
  exact Bool.noConfusion (show true = false from h)

theorem contains_eq_false_of_not_mem {a : List Nat} {l : List (List Nat)}
    (h : a ∉ l) : l.contains a = false := by
  cases hc : l.contains a with
  | false => rfl
  | true => exact absurd (List.elem_iff.mp (show List.elem a l = true from hc)) h

theorem dictSet_fresh {α : Type} (md : List (List Nat × α)) (k : List Nat) (v : α)
    (h : (md.map Prod.fst).contains k = false) : dictSet md k v = md ++ [(k, v)] := by
  unfold dictSet
  rw [if_neg (by rw [h]; exact Bool.false_ne_true)]

theorem replayBuildMd_entries :
    ∀ (ents : List (List Nat × List Nat)) (md : List (List Nat × List Nat)),
      (∀ q ∈ ents, pySplit (q.1 ++ [32, 32] ++ q.2) = [q.1, q.2]) →
      (∀ q ∈ ents, q.2 ∉ md.map Prod.fst) →
      (ents.map Prod.snd).Nodup →
      replayBuildMd md (ents.map fun q => q.1 ++ [32, 32] ++ q.2) =
        .ok (md ++ ents.map fun q => (q.2, q.1)) := by
  intro ents
  induction ents with
  | nil =>
    intro md _ _ _
    show Except.ok md = _
    rw [show List.map (fun q : List Nat × List Nat => (q.2, q.1)) [] = [] from rfl,
      List.append_nil]
  | cons q r ih =>
    intro md hsp hfresh hnd
    simp only [List.map_cons]
    rw [replayBuildMd_cons, hsp q (List.mem_cons_self _ _)]
    rw [if_neg (by simp), if_neg (by simp)]
    rw [show ([q.1, q.2].getD 1 []) = q.2 from rfl,
      show ([q.1, q.2].getD 0 []) = q.1 from rfl]
    rw [dictSet_fresh md q.2 q.1
      (contains_eq_false_of_not_mem (hfresh q (List.mem_cons_self _ _)))]
    rw [ih (md ++ [(q.2, q.1)]) (fun q2 h => hsp q2 (List.mem_cons_of_mem _ h))
      (fun q2 h => by
        rw [List.map_append]
        intro hmem
        rcases List.mem_append.mp hmem with h1 | h1
        · exact hfresh q2 (List.mem_cons_of_mem _ h) h1
        · have h2 : q2.2 = q.2 := by simpa using h1
          have hq2 : q.2 ∉ r.map Prod.snd := by
            rw [List.map_cons] at hnd
            exact (List.nodup_cons.mp hnd).1
          exact hq2 (h2 ▸ List.mem_map_of_mem Prod.snd h))
      (by rw [List.map_cons] at hnd; exact (List.nodup_cons.mp hnd).2)]
    rw [List.append_assoc]
    rfl

theorem insertionSort_total_last (names : List (List Nat))
    (hpw : List.Pairwise (fun a b => pyStrLt a b = true) names)
    (htl : ∀ nm ∈ names, pyStrLt TOTAL nm = true) :
    List.insertionSort pyLe (names ++ [TOTAL]) = TOTAL :: names := by
  refine List.eq_of_perm_of_sorted
    ((List.perm_insertionSort pyLe _).trans (List.perm_append_singleton _ _))
    (List.sorted_insertionSort pyLe _) ?_
  rw [List.sorted_cons]
  constructor
  · intro b hb
    exact pyStrLt_asymm (htl b hb)
  · exact hpw.imp fun hab => pyStrLt_asymm hab

theorem checkLoop_cons (env : Env) (rs : List (List Nat × List Nat))
    (st : CheckState) (l : List Nat) (ls : List (List Nat)) :
    checkLoop env rs st (l :: ls) =
      match checkStep env rs st l with
      | .error e => .error e
      | .ok st1 => checkLoop env rs st1 ls := rfl

theorem checkLoop_manifest (env : Env) (rs : List (List Nat × List Nat)) :
    ∀ (ments : List (List Nat × List Nat)) (st : CheckState),
      (∀ q ∈ ments, pySplit (q.1 ++ [32, 32] ++ q.2) = [q.1, q.2]) →
      (∀ q ∈ ments, q.2 = TOTAL ∨ dictGet rs q.2 = some q.1) →
      checkLoop env rs st (ments.map fun q => q.1 ++ [32, 32] ++ q.2) = .ok st := by
  intro ments
  induction ments with
  | nil => intro st _ _; rfl
  | cons q r ih =>
    intro st hsp hok
    simp only [List.map_cons]
    rw [checkLoop_cons]
    have hstep : checkStep env rs st (q.1 ++ [32, 32] ++ q.2) = .ok st := by
      rw [checkStep_two_tokens env rs st _ q.1 q.2 (hsp q (List.mem_cons_self _ _))]
      by_cases ht : q.2 = TOTAL
      · rw [if_pos ht]
      · rw [if_neg ht]
        rcases hok q (List.mem_cons_self _ _) with h | h
        · exact absurd h ht
        · rw [h]
          dsimp only
          rw [if_neg (not_not_intro rfl)]
    rw [hstep]
    exact ih st (fun q2 h => hsp q2 (List.mem_cons_of_mem _ h))
      (fun q2 h => hok q2 (List.mem_cons_of_mem _ h))

theorem nameChunks_emit (remote : List (List Nat × List Nat)) :
    ∀ (cs : List (List Nat)) (i : Nat),
      (∀ p ∈ nameChunks i cs, dictGet remote p.1 = some p.2) →
      ((nameChunks i cs).map Prod.fst).map (fun f => (dictGet remote f).getD []) = cs := by
  intro cs
  induction cs with
  | nil => intro i _; rfl
  | cons c r ih =>
    intro i h
    rw [show nameChunks i (c :: r) = (rpName i, c) :: nameChunks (i + 1) r from rfl]
    simp only [List.map_cons]
    rw [h (rpName i, c) (List.mem_cons_self _ _)]
    rw [ih (i + 1) (fun p hp => h p (List.mem_cons_of_mem _ hp))]
    rfl

theorem nameChunks_no_mismatch (H : List Nat → List Nat)
    (remote md : List (List Nat × List Nat)) :
    ∀ (cs : List (List Nat)) (i : Nat),
      (∀ p ∈ nameChunks i cs, dictGet remote p.1 = some p.2) →
      (∀ p ∈ nameChunks i cs, dictGet md p.1 = some (H p.2)) →
      ((nameChunks i cs).map Prod.fst).filter
        (fun f => H ((dictGet remote f).getD []) ≠ (dictGet md f).getD []) = [] := by
  intro cs
  induction cs with
  | nil => intro i _ _; rfl
  | cons c r ih =>
    intro i hr hm
    rw [show nameChunks i (c :: r) = (rpName i, c) :: nameChunks (i + 1) r from rfl]
    simp only [List.map_cons]
    rw [List.filter_cons, if_neg (by
      rw [hr (rpName i, c) (List.mem_cons_self _ _),
        hm (rpName i, c) (List.mem_cons_self _ _)]
      simp)]
    exact ih (i + 1) (fun p hp => hr p (List.mem_cons_of_mem _ hp))
      (fun p hp => hm p (List.mem_cons_of_mem _ hp))

/-- C1: round trip. With a digest function producing nonempty
whitespace-free digests, positive chunk and block sizes, checksum
verification enabled (nocheck off) and every chunk index representable
in the six-character name space, deposit of any finite input stream
succeeds, and replay with checksum verification enabled against the
resulting remote emits exactly the original byte sequence, with zero
per-chunk mismatch warnings and the whole-stream digest recomputed
during replay equal to the TOTAL digest recorded during the send
(totalWarn = false). -/
theorem deposit_replay_roundtrip (H : List Nat → List Nat) (parData : Nat → List Nat)
    (par2ok : List Nat → Bool) (repaired : List Nat → List Nat)
    (args : Args) (stdin : List Nat)
    (hH : HexLike H) (hC : 0 < args.chunksize) (hb : 0 < args.blocksize)
    (hnc : args.nocheck = false) (hlen : stdin.length + 1 ≤ 26 ^ 6) :
    ∃ st, deposit H parData par2ok repaired args stdin = .ok st ∧
      replay H par2ok repaired args st.remote = .done stdin 0 false := by
  obtain ⟨st, hdc, hchunks, hbuf, hrem, htot⟩ :=
    depositCore_spec H parData args stdin hC hb hlen
  set cs := chunkSplit args.chunksize stdin with hcsdef
  set ments : List (List Nat × List Nat) :=
    (nameChunks 0 cs).map (fun p => (H p.2, p.1)) ++ [(H stdin, TOTAL)] with hments
  have hcs_len : cs.length ≤ stdin.length := by
    rw [hcsdef]; exact chunkSplit_length_le args.chunksize hC stdin
  have hbound : 0 + cs.length ≤ 26 ^ 6 := by omega
  have hq_props : ∀ q ∈ ments, q.1 ≠ [] ∧ (∀ c ∈ q.1, isSpace c = false) ∧
      q.2 ≠ [] ∧ (∀ c ∈ q.2, isSpace c = false) := by
    intro q hq
    rw [hments] at hq
    rcases List.mem_append.mp hq with h | h
    · obtain ⟨p, hp, rfl⟩ := List.mem_map.mp h
      obtain ⟨j, _, _, hj⟩ := nameChunks_fst_mem cs 0 p.1 (List.mem_map_of_mem Prod.fst hp)
      refine ⟨(hH p.2).1, (hH p.2).2, ?_, ?_⟩
      · show p.1 ≠ []
        rw [hj]; exact rpName_ne_nil j
      · show ∀ c ∈ p.1, isSpace c = false
        rw [hj]; exact rpName_ws_free j
    · rw [List.mem_singleton] at h
      subst h
      exact ⟨(hH stdin).1, (hH stdin).2, show TOTAL ≠ [] by decide, TOTAL_ws_free⟩
  have hsp : ∀ q ∈ ments, pySplit (q.1 ++ [32, 32] ++ q.2) = [q.1, q.2] := by
    intro q hq
    obtain ⟨h1, h2, h3, h4⟩ := hq_props q hq
    exact pySplit_two_tokens q.1 q.2 h1 h3 h2 h4
  have hml : ments.map (fun q => manifestLine q.1 q.2) =
      ((nameChunks 0 cs).map fun p => manifestLine (H p.2) p.1) ++
        [manifestLine (H stdin) TOTAL] := by
    rw [hments, List.map_append, List.map_map]
    rfl
  have hbuf2 : st.manifestBuf = (ments.map fun q => manifestLine q.1 q.2).flatten := by
    rw [hml]; exact hbuf
  have hlines : pyLines st.manifestBuf = ments.map fun q => q.1 ++ [32, 32] ++ q.2 := by
    rw [hbuf2]
    exact pyLines_manifest ments (fun q hq => by
      obtain ⟨h1, h2, h3, h4⟩ := hq_props q hq
      exact ⟨fun c hc => isSpace_ne_ten (h2 c hc), fun c hc => isSpace_ne_ten (h4 c hc)⟩)
  have hrs : remoteSums H st.remote = (nameChunks 0 cs).map fun q => (q.1, H q.2) := by
    unfold remoteSums
    rw [hrem, uploadsOf_filter_rp args.parchive parData [(md5Name, st.manifestBuf)]
      (md5Name_filter_rp st.manifestBuf) cs 0]
  have hgetmd5 : dictGet st.remote md5Name = some st.manifestBuf := by
    rw [hrem, dictGet_append_none _ _ _ (uploadsOf_md5_none args.parchive parData cs 0),
      dictGet_cons, if_pos rfl]
  have hok : ∀ q ∈ ments, q.2 = TOTAL ∨ dictGet (remoteSums H st.remote) q.2 = some q.1 := by
    intro q hq
    rw [hments] at hq
    rcases List.mem_append.mp hq with h | h
    · obtain ⟨p, hp, rfl⟩ := List.mem_map.mp h
      right
      rw [hrs]
      show dictGet ((nameChunks 0 cs).map fun q => (q.1, H q.2)) p.1 = some (H p.2)
      have h2 := nameChunks_md_lookup H cs 0 [] hbound p hp
      rw [List.append_nil] at h2
      exact h2
    · left
      rw [List.mem_singleton] at h
      subst h
      rfl
  have hcheckloop : checkLoop ⟨args.repair, par2ok, repaired⟩ (remoteSums H st.remote)
      ⟨st.remote, []⟩ (pyLines st.manifestBuf) = .ok ⟨st.remote, []⟩ := by
    rw [hlines]
    exact checkLoop_manifest _ _ ments ⟨st.remote, []⟩ hsp hok
  have hcheck : check_pipe H ⟨args.repair, par2ok, repaired⟩ st.remote =
      .ok (st.manifestBuf, ⟨st.remote, []⟩) := by
    rw [check_pipe_eq, hgetmd5]
    simp only [Option.getD_some]
    rw [hcheckloop]
  have hdep : deposit H parData par2ok repaired args stdin = .ok st := by
    unfold deposit
    rw [hdc]
    dsimp only
    rw [hnc, if_neg Bool.false_ne_true, hcheck]
  have hrlookup : ∀ p ∈ nameChunks 0 cs, dictGet st.remote p.1 = some p.2 := by
    intro p hp
    rw [hrem]
    exact uploadsOf_lookup args.parchive parData [(md5Name, st.manifestBuf)] cs 0 hbound p hp
  have hmlookup : ∀ p ∈ nameChunks 0 cs,
      dictGet ((nameChunks 0 cs).map (fun q => (q.1, H q.2)) ++ [(TOTAL, H stdin)]) p.1 =
        some (H p.2) :=
    fun p hp => nameChunks_md_lookup H cs 0 [(TOTAL, H stdin)] hbound p hp
  have hsnd : ments.map Prod.snd = (nameChunks 0 cs).map Prod.fst ++ [TOTAL] := by
    rw [hments, List.map_append, List.map_map]
    rfl
  have hnd : (ments.map Prod.snd).Nodup := by
    rw [hsnd, List.nodup_append]
    exact ⟨nameChunks_fst_nodup cs 0 hbound, List.nodup_singleton TOTAL,
      fun a ha hb => by
        rw [List.mem_singleton] at hb
        obtain ⟨j, _, _, hj⟩ := nameChunks_fst_mem cs 0 a ha
        exact TOTAL_ne_rpName j (hb ▸ hj)⟩
  have hmd : replayBuildMd [] (pyLines st.manifestBuf) =
      .ok ((nameChunks 0 cs).map (fun q => (q.1, H q.2)) ++ [(TOTAL, H stdin)]) := by
    rw [hlines]
    rw [replayBuildMd_entries ments [] hsp (by intro q _; simp) hnd]
    rw [List.nil_append, hments, List.map_append, List.map_map]
    rfl
  have hkeys : dictKeys ((nameChunks 0 cs).map (fun q => (q.1, H q.2)) ++
      [(TOTAL, H stdin)]) = (nameChunks 0 cs).map Prod.fst ++ [TOTAL] := by
    unfold dictKeys
    rw [List.map_append, List.map_map]
    rfl
  have hsort : List.insertionSort pyLe ((nameChunks 0 cs).map Prod.fst ++ [TOTAL]) =
      TOTAL :: (nameChunks 0 cs).map Prod.fst := by
    apply insertionSort_total_last
    · exact nameChunks_fst_pairwise cs 0 hbound
    · intro nm hnm
      obtain ⟨j, _, _, hj⟩ := nameChunks_fst_mem cs 0 nm hnm
      rw [hj]; exact pyStrLt_TOTAL_rpName j
  have hfilter : ((TOTAL :: (nameChunks 0 cs).map Prod.fst).filter fun f => f ≠ TOTAL) =
      (nameChunks 0 cs).map Prod.fst := by
    rw [List.filter_cons, if_neg (by simp)]
    apply List.filter_eq_self.mpr
    intro a ha
    obtain ⟨j, _, _, hj⟩ := nameChunks_fst_mem cs 0 a ha
    rw [hj]
    exact decide_eq_true (fun heq => TOTAL_ne_rpName j heq.symm)
  have hflat : cs.flatten = stdin := by
    rw [hcsdef]; exact chunkSplit_flatten args.chunksize hC stdin
  have hfromMd : replayFromMd H st.remote args.blocksize
      ((nameChunks 0 cs).map (fun q => (q.1, H q.2)) ++ [(TOTAL, H stdin)]) =
      .done stdin 0 false := by
    unfold replayFromMd
    dsimp only
    rw [hkeys, hsort, replayEmit_spec H st.remote args.blocksize _ hb, hfilter]
    rw [nameChunks_emit st.remote cs 0 hrlookup,
      nameChunks_no_mismatch H st.remote _ cs 0 hrlookup hmlookup]
    rw [dictGet_append_none _ _ _ (chunkMd_TOTAL_none H cs 0), dictGet_cons, if_pos rfl]
    dsimp only
    rw [hflat]
    rw [show ([] : List (List Nat)).length = 0 from rfl]
    rw [decide_eq_false (not_not_intro rfl)]
  have hreplay : replay H par2ok repaired args st.remote = .done stdin 0 false := by
    unfold replay
    dsimp only
    rw [hnc, if_neg Bool.false_ne_true, hcheck]
    dsimp only
    rw [hmd]
    dsimp only
    exact hfromMd
  exact ⟨st, hdep, hreplay⟩

/-- Closed witness for C1: a five-byte stream, chunk size 2 and block
size 1 round-trips through deposit and replay with verification on. -/
theorem deposit_replay_roundtrip_witness :
    HexLike (fun _ => [104]) ∧ (0 : Nat) < 2 ∧ (0 : Nat) < 1 ∧
      (([1, 2, 3, 4, 5] : List Nat).length + 1 ≤ 26 ^ 6) ∧
      (∃ st, deposit (fun _ => [104]) (fun _ => [112]) (fun _ => true) (fun _ => [0])
          ⟨2, 1, 2, false, false, false⟩ [1, 2, 3, 4, 5] = .ok st ∧
        replay (fun _ => [104]) (fun _ => true) (fun _ => [0])
          ⟨2, 1, 2, false, false, false⟩ st.remote = .done [1, 2, 3, 4, 5] 0 false) :=
  ⟨fun _ => ⟨show ([104] : List Nat) ≠ [] by decide,
      show ∀ c ∈ ([104] : List Nat), isSpace c = false by decide⟩,
    by decide, by decide, by norm_num,
    deposit_replay_roundtrip (fun _ => [104]) (fun _ => [112]) (fun _ => true)
      (fun _ => [0]) ⟨2, 1, 2, false, false, false⟩ [1, 2, 3, 4, 5]
      (fun _ => ⟨show ([104] : List Nat) ≠ [] by decide,
        show ∀ c ∈ ([104] : List Nat), isSpace c = false by decide⟩)
      (by decide) (by decide) rfl (by norm_num)⟩

end RPipe
